import Mathlib

/-!
# go-ds `list.LinkedList`: a sentinel-bounded doubly linked list

Shallow embedding of `src/list/linked_list.go`.

* A pointer `*doubleNode` is `Ptr = Option Nat`: `none` is Go's `nil`, `some a` is
  the address of a node cell.
* The node store is a `List (doubleNode V)`; address `a` is the cell at position
  `a`.  `&doubleNode{..}` allocates the next free position.  Cells are never
  freed (Go is garbage collected; unreachable cells are simply never read again).
* An `interface{}` value is `Option V`: `none` is the `nil` interface, `some x` holds
  the dynamic value `x`.  Go's `==` on dynamic values is the operation `GoEq.eq`; it
  may panic (two values of the same uncomparable type) and need not be reflexive
  (`NaN == NaN` is false).
* Go's `int` is `Int`.  The only arithmetic in the file is `length++`,
  `length--` and loop counters bounded by `idx` or `length`; on a list that fits in
  memory none of them leaves the 64-bit range.
* A method that can dereference a pointer returns `Option`: `none` is the run-time
  panic "invalid memory address or nil pointer dereference".
-/

namespace GoDS

/-- Pointer to a node cell: `none` is `nil`. -/
abbrev Ptr := Option Nat

/-- Modelled from the spec: the declaration of the struct `doubleNode` is not in
`linked_list.go`.  A node holds a value and links to its left and right neighbours;
the fields are `val`, `left` and `right`, as the list code reads and writes them. -/
structure doubleNode (V : Type) where
  val : Option V
  left : Ptr
  right : Ptr
deriving DecidableEq

/-- The node store. -/
abbrev Heap (V : Type) := List (doubleNode V)

/-- The struct `LinkedList` together with the store its pointers refer to. -/
structure LinkedList (V : Type) where
  mem : Heap V
  length : Int
  head : Ptr
  tail : Ptr
deriving DecidableEq

/-- The value an `error` carries: the format string and its arguments. -/
structure GoError where
  format : String
  args : List Int
deriving DecidableEq

/-- Go's `==` on the dynamic values of two non-nil interface values: `some b` is the
result of the comparison, `none` is the run-time panic "comparing uncomparable type".
Nothing is assumed of it: for `float64` it is not reflexive (`NaN == NaN` is false). -/
class GoEq (V : Type) where
  eq : V → V → Option Bool

/-- On `int` values `==` never panics and is equality. -/
instance : GoEq Nat := ⟨fun a b => some (decide (a = b))⟩

/-- On `string` values `==` never panics and is equality. -/
instance : GoEq String := ⟨fun a b => some (decide (a = b))⟩

/-- A few dynamic values of three Go types: `int`, `float64` (only `NaN`) and `[]int`. -/
inductive GoVal where
  | int (n : Int)
  | nan
  | slice (xs : List Int)
deriving DecidableEq

/-- Go's `==` on `GoVal`: two `int`s compare by value, `NaN == NaN` is false, two
`[]int` values panic, and values of different dynamic types are unequal. -/
instance : GoEq GoVal :=
  ⟨fun a b =>
    match a, b with
    | .int m, .int n => some (decide (m = n))
    | .nan, .nan => some false
    | .slice _, .slice _ => none
    | _, _ => some false⟩

variable {V : Type}

/-- Go's `==` on two interface values: `nil` equals only `nil`, and two non-nil values
are compared by `GoEq.eq`. -/
def ifaceEq [GoEq V] : Option V → Option V → Option Bool
  | none, none => some true
  | none, some _ => some false
  | some _, none => some false
  | some a, some b => GoEq.eq a b

/-- Read the cell behind a pointer (`*p`); `none` when `p` is `nil`. -/
def load (m : Heap V) (p : Ptr) : Option (doubleNode V) :=
  p.bind fun a => m[a]?

/-- The assignment `p.left = q`. -/
def storeLeft (m : Heap V) (p q : Ptr) : Option (Heap V) :=
  p.bind fun a => (m[a]?).map fun nd => m.set a { nd with left := q }

/-- The assignment `p.right = q`. -/
def storeRight (m : Heap V) (p q : Ptr) : Option (Heap V) :=
  p.bind fun a => (m[a]?).map fun nd => m.set a { nd with right := q }

/-- The allocation `&doubleNode{val: v}`: the new store and the new address. -/
def alloc (m : Heap V) (v : Option V) : Heap V × Ptr :=
  (m ++ [{ val := v, left := none, right := none }], some m.length)

/-- The constructor `NewLinkedList()`: `head` is cell 0 and `tail` is cell 1. -/
def NewLinkedList : LinkedList V :=
  { mem := [{ val := none, left := none, right := some 1 },
            { val := none, left := some 0, right := none }]
    length := 0
    head := some 0
    tail := some 1 }

/-- The method `Empty`. -/
def Empty (l : LinkedList V) : Bool := l.length == 0

/-- The method `Length`. -/
def Length (l : LinkedList V) : Int := l.length

/-- The method `Back`. -/
def Back (l : LinkedList V) : Option (Option V) :=
  if Empty l then some none
  else (load l.mem l.tail).bind fun t => (load l.mem t.left).map fun n => n.val

/-- The method `Front`. -/
def Front (l : LinkedList V) : Option (Option V) :=
  if Empty l then some none
  else (load l.mem l.head).bind fun h => (load l.mem h.right).map fun n => n.val

/-- The helper `outOfRangeError`. -/
def outOfRangeError (l : LinkedList V) (index : Int) : GoError :=
  { format := "index out of range [%v] with length %v", args := [index, l.length] }

/-- The loop of `getNodeByIndex`: the first argument is the number of iterations
the counter test `i < idx` still allows. -/
def getNodeByIndexLoop (m : Heap V) (tail : Ptr) : Nat → Ptr → Option Ptr
  | 0, n => some n
  | k + 1, n =>
    if n = tail then some n
    else (load m n).bind fun nd => getNodeByIndexLoop m tail k nd.right

/-- The helper `getNodeByIndex`. -/
def getNodeByIndex (l : LinkedList V) (idx : Int) : Option Ptr :=
  (load l.mem l.head).bind fun h => getNodeByIndexLoop l.mem l.tail idx.toNat h.right

/-- The helper `addBefore`; each tuple assignment evaluates its operands first
and then stores from left to right. -/
def addBefore (m : Heap V) (newNode curNode : Ptr) : Option (Heap V) :=
  (load m curNode).bind fun cur =>
  (storeLeft m newNode cur.left).bind fun m1 =>
  (storeRight m1 newNode curNode).bind fun m2 =>
  (load m2 curNode).bind fun cur2 =>
  (storeRight m2 cur2.left newNode).bind fun m3 =>
  storeLeft m3 curNode newNode

/-- The helper `addToTail`. -/
def addToTail (l : LinkedList V) (node : Ptr) : Option (Heap V) :=
  (load l.mem l.tail).bind fun t =>
  (storeLeft l.mem node t.left).bind fun m1 =>
  (storeRight m1 node l.tail).bind fun m2 =>
  (load m2 l.tail).bind fun t2 =>
  (storeRight m2 t2.left node).bind fun m3 =>
  storeLeft m3 l.tail node

/-- The helper `removeNode`. -/
def removeNode (m : Heap V) (node : Ptr) : Option (Heap V) :=
  (load m node).bind fun nd =>
  (storeLeft m nd.right nd.left).bind fun m1 =>
  storeRight m1 nd.left nd.right

/-- The method `Append`. -/
def Append (l : LinkedList V) (v : Option V) : Option (LinkedList V) :=
  let (m0, node) := alloc l.mem v
  (addToTail { l with mem := m0 } node).map fun m1 => { l with mem := m1, length := l.length + 1 }

/-- The method `Clear`. -/
def Clear (l : LinkedList V) : Option (LinkedList V) :=
  (storeRight l.mem l.head l.tail).bind fun m1 =>
  (storeLeft m1 l.tail l.head).map fun m2 => { l with mem := m2, length := 0 }

/-- The method `Get`: the returned pair is `(value, error)`. -/
def Get (l : LinkedList V) (idx : Int) : Option (Option V × Option GoError) :=
  if idx ≥ l.length then some (none, some (outOfRangeError l idx))
  else (getNodeByIndex l idx).bind fun n => (load l.mem n).map fun nd => (nd.val, none)

/-- The method `Remove`: the list after the call and the returned error. -/
def Remove (l : LinkedList V) (idx : Int) : Option (LinkedList V × Option GoError) :=
  if idx ≥ l.length then some (l, some (outOfRangeError l idx))
  else
    (getNodeByIndex l idx).bind fun n =>
    (removeNode l.mem n).map fun m1 => ({ l with mem := m1, length := l.length - 1 }, none)

/-- The loop of `Index`: the first argument is the number of iterations the
counter test `i < l.length` still allows.  The test `p.val == v` is Go's interface
comparison `ifaceEq`; when it panics, so does the loop. -/
def IndexLoop [GoEq V] (m : Heap V) (v : Option V) : Nat → Int → Ptr → Option Int
  | 0, _, _ => some (-1)
  | k + 1, i, p =>
    if p = none then some (-1)
    else (load m p).bind fun nd =>
      (ifaceEq nd.val v).bind fun b =>
        if b then some i else IndexLoop m v k (i + 1) nd.right

/-- The method `Index`. -/
def Index [GoEq V] (l : LinkedList V) (v : Option V) : Option Int :=
  (load l.mem l.head).bind fun h => IndexLoop l.mem v l.length.toNat 0 h.right

/-- The method `Insert`: the list after the call and the returned error. -/
def Insert (l : LinkedList V) (idx : Int) (v : Option V) :
    Option (LinkedList V × Option GoError) :=
  if idx > l.length then
    some (l, some { format := "index must be in [0, %v], got index %v", args := [l.length, idx] })
  else
    let (m0, node) := alloc l.mem v
    (getNodeByIndex { l with mem := m0 } idx).bind fun cur =>
    (addBefore m0 node cur).map fun m1 => ({ l with mem := m1, length := l.length + 1 }, none)

/-- The loop of `ToSlice`.  The loop has no counter, so the first argument is
fuel: `none` also stands for a walk that never reaches `tail`. -/
def ToSliceLoop (m : Heap V) (tail : Ptr) : Nat → Ptr → List (Option V) → Option (List (Option V))
  | 0, p, s => if p = tail then some s else none
  | k + 1, p, s =>
    if p = tail then some s
    else (load m p).bind fun nd => ToSliceLoop m tail k nd.right (s ++ [nd.val])

/-- The method `ToSlice`.  A walk over a store of `n` cells that has not met `tail`
after `n` steps has met some cell twice and so never ends; the fuel `n` is
therefore enough whenever the Go loop terminates. -/
def ToSlice (l : LinkedList V) : Option (List (Option V)) :=
  (load l.mem l.head).bind fun h => ToSliceLoop l.mem l.tail l.mem.length h.right []

/-! ## Reading the store -/

/-- The `right` link of cell `a` (`nil` when there is no such cell). -/
def rightOf (m : Heap V) (a : Nat) : Ptr := (m[a]?).bind fun nd => nd.right

/-- The `left` link of cell `a` (`nil` when there is no such cell). -/
def leftOf (m : Heap V) (a : Nat) : Ptr := (m[a]?).bind fun nd => nd.left

/-- The value held by cell `a` (`nil` when there is no such cell). -/
def valOf (m : Heap V) (a : Nat) : Option V := (m[a]?).bind fun nd => nd.val

/-- Cell `a` with its `left` field overwritten. -/
def setLeft (m : Heap V) (a : Nat) (q : Ptr) : Heap V :=
  match m[a]? with
  | some nd => m.set a { nd with left := q }
  | none => m

/-- Cell `a` with its `right` field overwritten. -/
def setRight (m : Heap V) (a : Nat) (q : Ptr) : Heap V :=
  match m[a]? with
  | some nd => m.set a { nd with right := q }
  | none => m

/-! ## The linkage invariants of the data model -/

/-- Follow a link `k` times, starting from `p`. -/
def follow (next : Nat → Ptr) : Nat → Ptr → Ptr
  | 0, p => p
  | k + 1, p => follow next k (p.bind next)

/-- The cells met when walking right-links from `p` until `tail` (`tail` excluded).
The first argument bounds the number of steps; `none` when a `nil` link is met or
`tail` is not reached within the bound. -/
def walkRight (m : Heap V) (tail : Ptr) : Nat → Ptr → Option (List Nat)
  | 0, p => if p = tail then some [] else none
  | k + 1, p =>
    if p = tail then some []
    else p.bind fun a => (load m p).bind fun nd => (walkRight m tail k nd.right).map fun r => a :: r

/-- The cells met when walking right-links from `head.right` until `tail`. -/
def nodesRight (l : LinkedList V) : Option (List Nat) :=
  (load l.mem l.head).bind fun h => walkRight l.mem l.tail l.mem.length h.right

/-- Ring closure: `length+1` right-links from `head` reach `tail`, and `length+1`
left-links from `tail` reach `head`. -/
def ringClosure (l : LinkedList V) : Prop :=
  follow (rightOf l.mem) (l.length + 1).toNat l.head = l.tail ∧
  follow (leftOf l.mem) (l.length + 1).toNat l.tail = l.head

/-- Length consistency: `length` is the number of non-sentinel cells met when
walking right-links from `head.right` until `tail`. -/
def lengthConsistent (l : LinkedList V) : Prop :=
  (nodesRight l).map (fun ns =>
    ((ns.filter fun a => decide (some a ≠ l.head ∧ some a ≠ l.tail)).length : Int))
    = some l.length

/-- The cells of the walk from `head` up to, not including, `tail`. -/
def ringNodes (l : LinkedList V) : List Nat :=
  match l.head, nodesRight l with
  | some h, some ns => h :: ns
  | _, _ => []

/-- Symmetry: every cell `a` of the walk from `head` to `tail` has a right
neighbour `b`, and `b.left == a`. -/
def symmetry (l : LinkedList V) : Prop :=
  ∀ a ∈ ringNodes l, (rightOf l.mem a).bind (leftOf l.mem) = some a

/-- A well-formed list: `head` and `tail` are two distinct sentinels (the data model's
"two fixed sentinel nodes") and the three linkage invariants hold. -/
def WellFormed (l : LinkedList V) : Prop :=
  l.head ≠ l.tail ∧ ringClosure l ∧ lengthConsistent l ∧ symmetry l

instance (l : LinkedList V) : Decidable (ringClosure l) := by
  unfold ringClosure; infer_instance

instance (l : LinkedList V) : Decidable (lengthConsistent l) := by
  unfold lengthConsistent; infer_instance

instance (l : LinkedList V) : Decidable (symmetry l) := by
  unfold symmetry; infer_instance

instance (l : LinkedList V) : Decidable (WellFormed l) := by
  unfold WellFormed; infer_instance

/-- The public operations, with their arguments. -/
inductive Op (V : Type) where
  | append (v : Option V)
  | insert (idx : Int) (v : Option V)
  | remove (idx : Int)
  | get (idx : Int)
  | index (v : Option V)
  | front
  | back
  | empty
  | length
  | clear
  | toSlice

/-- The list after a call of a public operation; `none` when the call does not
return normally. -/
def Op.run [GoEq V] : Op V → LinkedList V → Option (LinkedList V)
  | .append v, l => Append l v
  | .insert idx v, l => (Insert l idx v).map fun r => r.1
  | .remove idx, l => (Remove l idx).map fun r => r.1
  | .get idx, l => (Get l idx).map fun _ => l
  | .index v, l => (Index l v).map fun _ => l
  | .front, l => (Front l).map fun _ => l
  | .back, l => (Back l).map fun _ => l
  | .empty, l => some l
  | .length, l => some l
  | .clear, l => Clear l
  | .toSlice, l => (ToSlice l).map fun _ => l

/-- The lists reachable from `NewLinkedList()` by public operations. -/
inductive Reachable [GoEq V] : LinkedList V → Prop where
  | new : Reachable NewLinkedList
  | step {l l2 : LinkedList V} (op : Op V) : Reachable l → op.run l = some l2 → Reachable l2

/-- Cells `a` and `b` are neighbours: `a.right == b` and `b.left == a`. -/
def linked (m : Heap V) (a b : Nat) : Prop :=
  rightOf m a = some b ∧ leftOf m b = some a

/-- The cells `a, xs..., t` are linked in this order. -/
def Seg (m : Heap V) : Nat → List Nat → Nat → Prop
  | a, [], t => linked m a t
  | a, x :: xs, t => linked m a x ∧ Seg m x xs t

/-- The list is the ring `h, ns..., t` of pairwise distinct cells. -/
structure Ring (l : LinkedList V) (h : Nat) (ns : List Nat) (t : Nat) : Prop where
  head_eq : l.head = some h
  tail_eq : l.tail = some t
  nodup : (h :: (ns ++ [t])).Nodup
  seg : Seg l.mem h ns t
  len : l.length = ns.length

/-- The calls `Append(v1)`, ..., `Append(vn)`, in this order. -/
def appendAll : LinkedList V → List (Option V) → Option (LinkedList V)
  | l, [] => some l
  | l, v :: vs => (Append l v).bind fun l2 => appendAll l2 vs

/-- The list `[1, 2, 3]`, as three `Append` calls on a new list leave it. -/
def list123 : LinkedList Nat :=
  { mem := [{ val := none, left := none, right := some 2 },
            { val := none, left := some 4, right := none },
            { val := some 1, left := some 0, right := some 3 },
            { val := some 2, left := some 2, right := some 4 },
            { val := some 3, left := some 3, right := some 1 }]
    length := 3
    head := some 0
    tail := some 1 }

/-- The round trip of the front: `n` times, read the front element with `Front()` and
with `Get(0)`, then call `Remove(0)`.  The result lists, per round, the value `Front`
returned, the pair `Get(0)` returned and the error `Remove(0)` returned, and gives the
list after the last round. -/
def drainFront : Nat → LinkedList V →
    Option (List (Option V × (Option V × Option GoError) × Option GoError) × LinkedList V)
  | 0, l => some ([], l)
  | n + 1, l =>
    (Front l).bind fun x =>
    (Get l 0).bind fun g =>
    (Remove l 0).bind fun r =>
    (drainFront n r.1).map fun rest => ((x, g, r.2) :: rest.1, rest.2)

/-- What the caller of a public operation gets back. -/
inductive Obs (V : Type) where
  | nothing
  | error (e : Option GoError)
  | valueError (x : Option V) (e : Option GoError)
  | value (x : Option V)
  | int (i : Int)
  | bool (b : Bool)
  | slice (s : List (Option V))
deriving DecidableEq

/-- A call of a public operation: the list after the call and what the call
returned; `none` when the call panics. -/
def Op.call [GoEq V] : Op V → LinkedList V → Option (LinkedList V × Obs V)
  | .append v, l => (Append l v).map fun l2 => (l2, .nothing)
  | .insert idx v, l => (Insert l idx v).map fun r => (r.1, .error r.2)
  | .remove idx, l => (Remove l idx).map fun r => (r.1, .error r.2)
  | .get idx, l => (Get l idx).map fun r => (l, .valueError r.1 r.2)
  | .index v, l => (Index l v).map fun i => (l, .int i)
  | .front, l => (Front l).map fun x => (l, .value x)
  | .back, l => (Back l).map fun x => (l, .value x)
  | .empty, l => some (l, .bool (Empty l))
  | .length, l => some (l, .int (Length l))
  | .clear, l => (Clear l).map fun l2 => (l2, .nothing)
  | .toSlice, l => (ToSlice l).map fun s => (l, .slice s)

/-- What a program that makes the calls `ops` in this order sees: the value each call
returns, up to and including the first call that panics (`none`). -/
def observe [GoEq V] : List (Op V) → LinkedList V → List (Option (Obs V))
  | [], _ => []
  | op :: ops, l =>
    match op.call l with
    | none => [none]
    | some r => some r.2 :: observe ops r.1

/-- The index argument of the call, if it has one, is not negative. -/
def Op.nonneg : Op V → Bool
  | .insert idx _ => decide (0 ≤ idx)
  | .remove idx => decide (0 ≤ idx)
  | .get idx => decide (0 ≤ idx)
  | _ => true

/-- The operations that only read: `Get`, `Index`, `Front`, `Back`, `Empty`, `Length`
and `ToSlice`. -/
def Op.readOnly : Op V → Bool
  | .get _ => true
  | .index _ => true
  | .front => true
  | .back => true
  | .empty => true
  | .length => true
  | .toSlice => true
  | _ => false

/-- The position, counted from `i`, of the first element of `s` that is `==` to `v`;
`-1` when there is none, and `none` when a comparison on the way panics. -/
def firstIndex [GoEq V] (v : Option V) : List (Option V) → Int → Option Int
  | [], _ => some (-1)
  | x :: xs, i => (ifaceEq x v).bind fun b => if b then some i else firstIndex v xs (i + 1)

/-- The sequence view of a call: acting on the sequence of element values `s`, the
sequence after the call and the value returned; `none` when the call panics. -/
def Op.onSeq [GoEq V] : Op V → List (Option V) → Option (List (Option V) × Obs V)
  | .append v, s => some (s ++ [v], .nothing)
  | .insert idx v, s =>
    some (if idx > s.length then
      (s, .error (some { format := "index must be in [0, %v], got index %v",
                         args := [s.length, idx] }))
    else (s.take idx.toNat ++ v :: s.drop idx.toNat, .error none))
  | .remove idx, s =>
    some (if idx ≥ s.length then
      (s, .error (some { format := "index out of range [%v] with length %v",
                         args := [idx, s.length] }))
    else (s.take idx.toNat ++ s.drop (idx.toNat + 1), .error none))
  | .get idx, s =>
    some (if idx ≥ s.length then
      (s, .valueError none (some { format := "index out of range [%v] with length %v",
                                   args := [idx, s.length] }))
    else (s, .valueError (s[idx.toNat]?).join none))
  | .index v, s => (firstIndex v s 0).map fun i => (s, .int i)
  | .front, s => some (s, .value s.head?.join)
  | .back, s => some (s, .value s.getLast?.join)
  | .empty, s => some (s, .bool ((s.length : Int) == 0))
  | .length, s => some (s, .int s.length)
  | .clear, _ => some ([], .nothing)
  | .toSlice, s => some (s, .slice s)

/-- The loop of `Index` with a count of the nodes inspected (loop iterations) carried
along in the last argument. -/
def IndexLoopSteps [GoEq V] (m : Heap V) (v : Option V) :
    Nat → Int → Ptr → Nat → Option (Int × Nat)
  | 0, _, _, n => some (-1, n)
  | k + 1, i, p, n =>
    if p = none then some (-1, n)
    else (load m p).bind fun nd =>
      (ifaceEq nd.val v).bind fun b =>
        if b then some (i, n + 1) else IndexLoopSteps m v k (i + 1) nd.right (n + 1)

/-- The method `Index` with the number of nodes its loop inspects. -/
def IndexSteps [GoEq V] (l : LinkedList V) (v : Option V) : Option (Int × Nat) :=
  (load l.mem l.head).bind fun h => IndexLoopSteps l.mem v l.length.toNat 0 h.right 0

/-- A corrupted list: the right-links from `head` run into the cycle `2 → 3 → 2` and
never reach `tail`; `length` claims 5 elements. -/
def cycleList : LinkedList Nat :=
  { mem := [{ val := none, left := none, right := some 2 },
            { val := none, left := some 3, right := none },
            { val := some 1, left := some 0, right := some 3 },
            { val := some 2, left := some 2, right := some 2 }]
    length := 5
    head := some 0
    tail := some 1 }

/-- A corrupted list: the right-links from `head` run into a nil link after one node;
`length` claims 5 elements. -/
def nilLinkList : LinkedList Nat :=
  { mem := [{ val := none, left := none, right := some 2 },
            { val := none, left := some 2, right := none },
            { val := some 1, left := some 0, right := none }]
    length := 5
    head := some 0
    tail := some 1 }

/-- The number of link fields (`left` or `right` of a cell) on which two stores of the
same size differ. -/
def changedLinks (m m2 : Heap V) : Nat :=
  (List.range m.length).countP (fun a => decide (leftOf m2 a ≠ leftOf m a)) +
  (List.range m.length).countP (fun a => decide (rightOf m2 a ≠ rightOf m a))

/-! ## Lemmas about the store -/

theorem load_some {m : Heap V} {a : Nat} (h : a < m.length) :
    load m (some a) = some ⟨valOf m a, leftOf m a, rightOf m a⟩ := by
  simp [load, valOf, leftOf, rightOf, List.getElem?_eq_getElem h]

theorem storeLeft_some {m : Heap V} {a : Nat} (h : a < m.length) (q : Ptr) :
    storeLeft m (some a) q = some (setLeft m a q) := by
  simp [storeLeft, setLeft, List.getElem?_eq_getElem h]

theorem storeRight_some {m : Heap V} {a : Nat} (h : a < m.length) (q : Ptr) :
    storeRight m (some a) q = some (setRight m a q) := by
  simp [storeRight, setRight, List.getElem?_eq_getElem h]

@[simp] theorem length_setLeft (m : Heap V) (a : Nat) (q : Ptr) :
    (setLeft m a q).length = m.length := by
  unfold setLeft; split <;> simp

@[simp] theorem length_setRight (m : Heap V) (a : Nat) (q : Ptr) :
    (setRight m a q).length = m.length := by
  unfold setRight; split <;> simp

theorem getElem?_setLeft (m : Heap V) (a b : Nat) (q : Ptr) :
    (setLeft m a q)[b]? = (m[b]?).map fun nd => if b = a then { nd with left := q } else nd := by
  unfold setLeft
  split
  · rename_i nd h
    by_cases hab : b = a
    · subst hab; simp [List.getElem?_set, h, (List.getElem?_eq_some_iff.mp h).1]
    · simp [List.getElem?_set_ne (Ne.symm hab), hab]
  · rename_i h
    by_cases hab : b = a
    · subst hab; simp [h]
    · simp [hab]

theorem getElem?_setRight (m : Heap V) (a b : Nat) (q : Ptr) :
    (setRight m a q)[b]? = (m[b]?).map fun nd => if b = a then { nd with right := q } else nd := by
  unfold setRight
  split
  · rename_i nd h
    by_cases hab : b = a
    · subst hab; simp [List.getElem?_set, h, (List.getElem?_eq_some_iff.mp h).1]
    · simp [List.getElem?_set_ne (Ne.symm hab), hab]
  · rename_i h
    by_cases hab : b = a
    · subst hab; simp [h]
    · simp [hab]

@[simp] theorem rightOf_setLeft (m : Heap V) (a b : Nat) (q : Ptr) :
    rightOf (setLeft m a q) b = rightOf m b := by
  unfold rightOf
  rw [getElem?_setLeft]
  cases m[b]? <;> simp
  split <;> rfl

@[simp] theorem valOf_setLeft (m : Heap V) (a b : Nat) (q : Ptr) :
    valOf (setLeft m a q) b = valOf m b := by
  unfold valOf
  rw [getElem?_setLeft]
  cases m[b]? <;> simp
  split <;> rfl

theorem leftOf_setLeft (m : Heap V) (a b : Nat) (q : Ptr) (h : a < m.length) :
    leftOf (setLeft m a q) b = if b = a then q else leftOf m b := by
  unfold leftOf
  rw [getElem?_setLeft]
  by_cases hab : b = a
  · subst hab; simp [List.getElem?_eq_getElem h]
  · simp [hab]

@[simp] theorem leftOf_setRight (m : Heap V) (a b : Nat) (q : Ptr) :
    leftOf (setRight m a q) b = leftOf m b := by
  unfold leftOf
  rw [getElem?_setRight]
  cases m[b]? <;> simp
  split <;> rfl

@[simp] theorem valOf_setRight (m : Heap V) (a b : Nat) (q : Ptr) :
    valOf (setRight m a q) b = valOf m b := by
  unfold valOf
  rw [getElem?_setRight]
  cases m[b]? <;> simp
  split <;> rfl

theorem rightOf_setRight (m : Heap V) (a b : Nat) (q : Ptr) (h : a < m.length) :
    rightOf (setRight m a q) b = if b = a then q else rightOf m b := by
  unfold rightOf
  rw [getElem?_setRight]
  by_cases hab : b = a
  · subst hab; simp [List.getElem?_eq_getElem h]
  · simp [hab]

theorem rightOf_lt {m : Heap V} {a b : Nat} (h : rightOf m a = some b) : a < m.length := by
  unfold rightOf at h
  by_contra hc
  simp [List.getElem?_eq_none (Nat.le_of_not_lt hc)] at h

theorem leftOf_lt {m : Heap V} {a b : Nat} (h : leftOf m a = some b) : a < m.length := by
  unfold leftOf at h
  by_contra hc
  simp [List.getElem?_eq_none (Nat.le_of_not_lt hc)] at h

/-- Reading an old cell after an allocation. -/
theorem rightOf_append (m : Heap V) (nd : doubleNode V) (a : Nat) :
    rightOf (m ++ [nd]) a = if a = m.length then nd.right else rightOf m a := by
  unfold rightOf
  by_cases h : a = m.length
  · subst h; simp
  · simp only [h, if_false]
    rcases Nat.lt_or_gt_of_ne h with h1 | h1
    · rw [List.getElem?_append_left h1]
    · rw [List.getElem?_eq_none (by simp; omega), List.getElem?_eq_none (by omega)]

theorem leftOf_append (m : Heap V) (nd : doubleNode V) (a : Nat) :
    leftOf (m ++ [nd]) a = if a = m.length then nd.left else leftOf m a := by
  unfold leftOf
  by_cases h : a = m.length
  · subst h; simp
  · simp only [h, if_false]
    rcases Nat.lt_or_gt_of_ne h with h1 | h1
    · rw [List.getElem?_append_left h1]
    · rw [List.getElem?_eq_none (by simp; omega), List.getElem?_eq_none (by omega)]

theorem valOf_append (m : Heap V) (nd : doubleNode V) (a : Nat) :
    valOf (m ++ [nd]) a = if a = m.length then nd.val else valOf m a := by
  unfold valOf
  by_cases h : a = m.length
  · subst h; simp
  · simp only [h, if_false]
    rcases Nat.lt_or_gt_of_ne h with h1 | h1
    · rw [List.getElem?_append_left h1]
    · rw [List.getElem?_eq_none (by simp; omega), List.getElem?_eq_none (by omega)]

/-! ## Linked segments -/

theorem Seg.right_head {m : Heap V} {a t : Nat} {xs : List Nat} (h : Seg m a xs t) :
    rightOf m a = some (xs.headD t) := by
  cases xs with
  | nil => exact h.1
  | cons x xs => exact h.1.1

theorem Seg.lt_first {m : Heap V} {a t : Nat} {xs : List Nat} (h : Seg m a xs t) :
    a < m.length := rightOf_lt h.right_head

theorem Seg.mem_lt {m : Heap V} {xs : List Nat} {a t : Nat} (h : Seg m a xs t) :
    ∀ x ∈ a :: (xs ++ [t]), x < m.length := by
  induction xs generalizing a with
  | nil =>
    intro x hx
    simp at hx
    rcases hx with rfl | rfl
    · exact rightOf_lt h.1
    · exact leftOf_lt h.2
  | cons y ys ih =>
    intro x hx
    rcases List.mem_cons.mp hx with rfl | hx
    · exact rightOf_lt h.1.1
    · exact ih h.2 x (by simpa using hx)

theorem Seg.frame {m m2 : Heap V} {xs : List Nat} {a t : Nat} (h : Seg m a xs t)
    (hr : ∀ x ∈ a :: xs, rightOf m2 x = rightOf m x)
    (hl : ∀ x ∈ xs ++ [t], leftOf m2 x = leftOf m x) : Seg m2 a xs t := by
  induction xs generalizing a with
  | nil =>
    refine ⟨?_, ?_⟩
    · rw [hr a (by simp)]; exact h.1
    · rw [hl t (by simp)]; exact h.2
  | cons y ys ih =>
    refine ⟨⟨?_, ?_⟩, ?_⟩
    · rw [hr a (by simp)]; exact h.1.1
    · rw [hl y (by simp)]; exact h.1.2
    · exact ih h.2 (fun x hx => hr x (List.mem_cons_of_mem _ hx))
        (fun x hx => hl x (by simp at hx ⊢; tauto))

/-- The left neighbour of the first cell after a prefix lies in that prefix. -/
theorem Seg.left_mem {m : Heap V} {pre post : List Nat} {a t prev : Nat}
    (h : Seg m a (pre ++ post) t) (hp : leftOf m (post.headD t) = some prev) :
    prev ∈ a :: pre := by
  induction pre generalizing a with
  | nil =>
    have h1 := h.right_head
    cases post with
    | nil =>
      have := h.2; simp at hp; rw [hp] at this; simp at this; simp [this]
    | cons c cs =>
      have := h.1.2; simp at hp; rw [hp] at this; simp at this; simp [this]
  | cons y ys ih =>
    exact List.mem_cons_of_mem _ (ih h.2)

/-! ## The splice primitives on the store -/

theorem addBefore_eq {m : Heap V} {new cur prev : Nat} (hnew : new < m.length)
    (hcur : cur < m.length) (hprev : prev < m.length) (hl : leftOf m cur = some prev)
    (hne : new ≠ cur) :
    addBefore m (some new) (some cur) = some
      (setLeft (setRight (setRight (setLeft m new (some prev)) new (some cur)) prev (some new))
        cur (some new)) := by
  unfold addBefore
  rw [load_some hcur]
  simp only [Option.some_bind, hl]
  rw [storeLeft_some hnew]
  simp only [Option.some_bind]
  rw [storeRight_some (by simpa using hnew)]
  simp only [Option.some_bind]
  rw [load_some (by simpa using hcur)]
  simp only [Option.some_bind, leftOf_setRight]
  rw [leftOf_setLeft _ _ _ _ hnew, if_neg (Ne.symm hne), hl]
  rw [storeRight_some (by simpa using hprev)]
  simp only [Option.some_bind]
  rw [storeLeft_some (by simpa using hcur)]

theorem removeNode_eq {m : Heap V} {node prev next : Nat} (hnode : node < m.length)
    (hprev : prev < m.length) (hnext : next < m.length)
    (hl : leftOf m node = some prev) (hr : rightOf m node = some next) :
    removeNode m (some node) = some (setRight (setLeft m next (some prev)) prev (some next)) := by
  unfold removeNode
  rw [load_some hnode]
  simp only [Option.some_bind, hl, hr]
  rw [storeLeft_some hnext]
  simp only [Option.some_bind]
  rw [storeRight_some (by simpa using hprev)]

/-- Splicing a fresh cell `new` between `prev` and `cur` in a linked segment. -/
theorem Seg.insert {m m2 : Heap V} {pre post : List Nat} {a t new prev : Nat}
    (h : Seg m a (pre ++ post) t) (hnd : (a :: (pre ++ post ++ [t])).Nodup)
    (hnew : new ∉ a :: (pre ++ post ++ [t]))
    (hp : leftOf m (post.headD t) = some prev)
    (hr : ∀ x, rightOf m2 x =
      if x = prev then some new else if x = new then some (post.headD t) else rightOf m x)
    (hl : ∀ x, leftOf m2 x =
      if x = post.headD t then some new else if x = new then some prev else leftOf m x) :
    Seg m2 a (pre ++ new :: post) t := by
  induction pre generalizing a with
  | nil =>
    have hpa : prev = a := by
      have := Seg.left_mem (show Seg m a ([] ++ post) t from h) hp
      simpa using this
    subst hpa
    simp only [List.nil_append] at h hnd hnew ⊢
    have hnc : new ≠ post.headD t := by
      intro hc
      apply hnew
      rw [hc]
      cases post <;> simp
    refine ⟨⟨?_, ?_⟩, ?_⟩
    · rw [hr]; simp
    · rw [hl, if_neg hnc]; simp
    · cases post with
      | nil =>
        simp only [List.headD_nil] at hr hl hnc
        have hnp : new ≠ prev := by intro hc; apply hnew; simp [hc]
        refine ⟨?_, ?_⟩
        · rw [hr]; simp [hnp]
        · rw [hl]; simp
      | cons c cs =>
        simp only [List.headD_cons] at hr hl hnc
        have hnp : new ≠ prev := by intro hc; apply hnew; simp [hc]
        refine ⟨⟨?_, ?_⟩, ?_⟩
        · rw [hr]; simp [hnp]
        · rw [hl]; simp
        · refine h.2.frame ?_ ?_
          · intro x hx
            have h1 : x ≠ prev := by
              rintro rfl
              simp only [List.nodup_cons] at hnd
              exact hnd.1 (by simp at hx ⊢; tauto)
            have h2 : x ≠ new := by
              rintro rfl
              exact hnew (by simp at hx ⊢; tauto)
            rw [hr]; simp [h1, h2]
          · intro x hx
            have h1 : x ≠ c := by
              rintro rfl
              simp only [List.nodup_cons, List.cons_append] at hnd
              exact hnd.2.1 (by simpa using hx)
            have h2 : x ≠ new := by
              rintro rfl
              exact hnew (by simp at hx ⊢; tauto)
            rw [hl]; simp [h1, h2]
  | cons y ys ih =>
    have hmem := h.left_mem hp
    simp only [List.cons_append] at h hnd hnew ⊢
    have hnd2 := (List.nodup_cons.mp hnd).2
    have hay := (List.nodup_cons.mp hnd).1
    refine ⟨⟨?_, ?_⟩, ih h.2 hnd2 (fun hc => hnew (List.mem_cons_of_mem _ hc))⟩
    · have h1 : a ≠ prev := by
        rintro rfl
        have := h.2.left_mem hp
        exact hay (by simp at this ⊢; tauto)
      have h2 : a ≠ new := by rintro rfl; exact hnew (by simp)
      rw [hr]; simp [h1, h2]; exact h.1.1
    · have h1 : y ≠ post.headD t := by
        intro hc
        have : post.headD t ∈ post ++ [t] := by cases post <;> simp
        rw [← hc] at this
        exact (List.nodup_cons.mp hnd2).1 (by simp at this ⊢; tauto)
      have h2 : y ≠ new := by rintro rfl; exact hnew (by simp)
      rw [hl, if_neg h1, if_neg h2]; exact h.1.2

/-- Unlinking the cell `node` from a linked segment. -/
theorem Seg.remove {m m2 : Heap V} {pre post : List Nat} {a t node prev : Nat}
    (h : Seg m a (pre ++ node :: post) t) (hnd : (a :: (pre ++ node :: post ++ [t])).Nodup)
    (hp : leftOf m node = some prev)
    (hr : ∀ x, rightOf m2 x = if x = prev then some (post.headD t) else rightOf m x)
    (hl : ∀ x, leftOf m2 x = if x = post.headD t then some prev else leftOf m x) :
    Seg m2 a (pre ++ post) t := by
  induction pre generalizing a with
  | nil =>
    simp only [List.nil_append] at h hnd ⊢
    have hpa : prev = a := by
      have := h.1.2; rw [hp] at this; simpa using this
    subst hpa
    cases post with
    | nil =>
      simp only [List.headD_nil] at hr hl
      refine ⟨?_, ?_⟩
      · rw [hr]; simp
      · rw [hl]; simp
    | cons c cs =>
      simp only [List.headD_cons] at hr hl
      refine ⟨⟨?_, ?_⟩, ?_⟩
      · rw [hr]; simp
      · rw [hl]; simp
      · refine h.2.2.frame ?_ ?_
        · intro x hx
          have h1 : x ≠ prev := by
            rintro rfl
            simp only [List.nodup_cons] at hnd
            exact hnd.1 (by simp at hx ⊢; tauto)
          rw [hr]; simp [h1]
        · intro x hx
          have h1 : x ≠ c := by
            rintro rfl
            simp only [List.nodup_cons, List.cons_append] at hnd
            exact hnd.2.2.1 (by simpa using hx)
          rw [hl]; simp [h1]
  | cons y ys ih =>
    have hmem := Seg.left_mem h.2 (show leftOf m ((node :: post).headD t) = some prev from hp)
    simp only [List.cons_append] at h hnd ⊢
    have hnd2 := (List.nodup_cons.mp hnd).2
    have hay := (List.nodup_cons.mp hnd).1
    refine ⟨⟨?_, ?_⟩, ih h.2 hnd2⟩
    · have h1 : a ≠ prev := by
        rintro rfl
        exact hay (by simp at hmem ⊢; tauto)
      rw [hr]; simp [h1]; exact h.1.1
    · have h1 : y ≠ post.headD t := by
        intro hc
        have : post.headD t ∈ post ++ [t] := by cases post <;> simp
        rw [← hc] at this
        exact (List.nodup_cons.mp hnd2).1 (by simp at this ⊢; tauto)
      rw [hl, if_neg h1]; exact h.1.2

/-! ## The loops on a linked segment -/

theorem getNodeByIndexLoop_seg {m : Heap V} {ns : List Nat} {a t : Nat} (h : Seg m a ns t)
    (ht : t ∉ ns) (k : Nat) :
    getNodeByIndexLoop m (some t) k (some (ns.headD t)) = some (some ((ns.drop k).headD t)) := by
  induction ns generalizing a k with
  | nil => cases k <;> simp [getNodeByIndexLoop]
  | cons x xs ih =>
    cases k with
    | zero => simp [getNodeByIndexLoop]
    | succ k =>
      have hx : x ≠ t := fun hc => ht (by simp [hc])
      have hxs : t ∉ xs := fun hc => ht (List.mem_cons_of_mem _ hc)
      simp only [getNodeByIndexLoop, List.headD_cons, Option.some.injEq, hx, if_false,
        List.drop_succ_cons]
      rw [load_some h.2.lt_first]
      simp only [Option.some_bind, h.2.right_head]
      exact ih h.2 hxs k

theorem ToSliceLoop_seg {m : Heap V} {ns : List Nat} {a t : Nat} (h : Seg m a ns t)
    (ht : t ∉ ns) (fuel : Nat) (hf : ns.length ≤ fuel) (acc : List (Option V)) :
    ToSliceLoop m (some t) fuel (some (ns.headD t)) acc = some (acc ++ ns.map (valOf m)) := by
  induction ns generalizing a fuel acc with
  | nil => cases fuel <;> simp [ToSliceLoop]
  | cons x xs ih =>
    cases fuel with
    | zero => simp at hf
    | succ k =>
      have hx : x ≠ t := fun hc => ht (by simp [hc])
      have hxs : t ∉ xs := fun hc => ht (List.mem_cons_of_mem _ hc)
      simp only [ToSliceLoop, List.headD_cons, Option.some.injEq, hx, if_false]
      rw [load_some h.2.lt_first]
      simp only [Option.some_bind, h.2.right_head]
      rw [ih h.2 hxs k (by simpa using hf)]
      simp

theorem walkRight_seg {m : Heap V} {ns : List Nat} {a t : Nat} (h : Seg m a ns t)
    (ht : t ∉ ns) (fuel : Nat) (hf : ns.length ≤ fuel) :
    walkRight m (some t) fuel (some (ns.headD t)) = some ns := by
  induction ns generalizing a fuel with
  | nil => cases fuel <;> simp [walkRight]
  | cons x xs ih =>
    cases fuel with
    | zero => simp at hf
    | succ k =>
      have hx : x ≠ t := fun hc => ht (by simp [hc])
      have hxs : t ∉ xs := fun hc => ht (List.mem_cons_of_mem _ hc)
      simp only [walkRight, List.headD_cons, Option.some.injEq, hx, if_false]
      rw [load_some h.2.lt_first]
      simp only [Option.some_bind, h.2.right_head]
      rw [ih h.2 hxs k (by simpa using hf)]
      simp

theorem IndexLoop_seg [GoEq V] [DecidableEq V] {m : Heap V} {ns : List Nat} {a t : Nat}
    (h : Seg m a ns t) (v : Option V) (i : Int)
    (hlaw : ∀ x ∈ ns, ifaceEq (valOf m x) v = some (decide (valOf m x = v))) :
    ∃ r, IndexLoop m v ns.length i (some (ns.headD t)) = some r ∧
      ((r = -1 ∧ ∀ x ∈ ns, valOf m x ≠ v) ∨
       (∃ j : Nat, j < ns.length ∧ r = i + j ∧ (ns.map (valOf m))[j]? = some v ∧
          ∀ j2 : Nat, j2 < j → (ns.map (valOf m))[j2]? ≠ some v)) := by
  induction ns generalizing a i with
  | nil => exact ⟨-1, by simp [IndexLoop]⟩
  | cons x xs ih =>
    simp only [IndexLoop, List.headD_cons, List.length_cons, List.map_cons]
    rw [load_some h.2.lt_first]
    simp only [Option.some_bind, h.2.right_head, reduceCtorEq, if_false]
    rw [hlaw x (List.mem_cons_self _ _)]
    simp only [Option.some_bind, decide_eq_true_eq]
    by_cases hv : valOf m x = v
    · refine ⟨i, by simp [hv], Or.inr ⟨0, by simp, by simp, by simp [hv], by simp⟩⟩
    · rw [if_neg hv]
      obtain ⟨r, hr, hcase⟩ := ih h.2 (i + 1) (fun y hy => hlaw y (List.mem_cons_of_mem _ hy))
      refine ⟨r, hr, ?_⟩
      rcases hcase with ⟨h1, h2⟩ | ⟨j, hj, hrj, hget, hmin⟩
      · left
        refine ⟨h1, ?_⟩
        intro y hy
        rcases List.mem_cons.mp hy with rfl | hy
        · exact hv
        · exact h2 y hy
      · right
        refine ⟨j + 1, by omega, by rw [hrj]; push_cast; ring, by simpa using hget, ?_⟩
        intro j2 hj2
        cases j2 with
        | zero => simpa using hv
        | succ j3 => simpa using hmin j3 (by omega)

theorem Seg.left_exists {m : Heap V} {pre post : List Nat} {a t : Nat}
    (h : Seg m a (pre ++ post) t) : ∃ prev, leftOf m (post.headD t) = some prev := by
  induction pre generalizing a with
  | nil =>
    cases post with
    | nil => exact ⟨a, h.2⟩
    | cons c cs => exact ⟨a, h.1.2⟩
  | cons y ys ih => exact ih h.2

theorem Seg.headD_mem (post : List Nat) (t : Nat) : post.headD t ∈ post ++ [t] := by
  cases post <;> simp

/-- The effect of `addBefore` on a linked segment. -/
theorem addBefore_seg {m : Heap V} {pre post : List Nat} {a t new : Nat}
    (h : Seg m a (pre ++ post) t) (hnd : (a :: (pre ++ post ++ [t])).Nodup)
    (hlt : new < m.length) (hnew : new ∉ a :: (pre ++ post ++ [t])) :
    ∃ m2 prev, addBefore m (some new) (some (post.headD t)) = some m2 ∧ prev ∈ a :: pre ∧
      Seg m2 a (pre ++ new :: post) t ∧ m2.length = m.length ∧
      (∀ x, valOf m2 x = valOf m x) ∧
      (∀ x, x ≠ prev → x ≠ new → rightOf m2 x = rightOf m x) := by
  obtain ⟨prev, hp⟩ := h.left_exists
  have hpm := h.left_mem hp
  have hcm : post.headD t ∈ a :: (pre ++ post ++ [t]) := by
    have := Seg.headD_mem post t
    simp at this ⊢; tauto
  have hcur : post.headD t < m.length := h.mem_lt _ (by simpa using hcm)
  have hprev : prev < m.length := h.mem_lt _ (by simp at hpm ⊢; tauto)
  have hne : new ≠ post.headD t := fun hc => hnew (hc ▸ hcm)
  refine ⟨_, prev, addBefore_eq hlt hcur hprev hp hne, hpm, ?_, by simp, by simp, ?_⟩
  · refine h.insert hnd hnew hp ?_ ?_
    · intro x
      rw [rightOf_setLeft, rightOf_setRight _ _ _ _ (by simpa using hprev),
        rightOf_setRight _ _ _ _ (by simpa using hlt), rightOf_setLeft]
    · intro x
      rw [leftOf_setLeft _ _ _ _ (by simpa using hcur), leftOf_setRight, leftOf_setRight,
        leftOf_setLeft _ _ _ _ hlt]
  · intro x h1 h2
    rw [rightOf_setLeft, rightOf_setRight _ _ _ _ (by simpa using hprev),
      rightOf_setRight _ _ _ _ (by simpa using hlt), rightOf_setLeft, if_neg h1, if_neg h2]

/-- The effect of `removeNode` on a linked segment. -/
theorem removeNode_seg {m : Heap V} {pre post : List Nat} {a t node : Nat}
    (h : Seg m a (pre ++ node :: post) t) (hnd : (a :: (pre ++ node :: post ++ [t])).Nodup) :
    ∃ m2 prev, removeNode m (some node) = some m2 ∧ prev ∈ a :: pre ∧
      Seg m2 a (pre ++ post) t ∧ m2.length = m.length ∧
      (∀ x, valOf m2 x = valOf m x) ∧
      (∀ x, x ≠ prev → rightOf m2 x = rightOf m x) := by
  have hex : ∃ prev, leftOf m ((node :: post).headD t) = some prev := h.left_exists
  obtain ⟨prev, hp⟩ := hex
  have hpm := h.left_mem hp
  simp only [List.headD_cons] at hp
  have hseg2 : Seg m node post t ∧ node < m.length := by
    clear hpm hp hnd
    induction pre generalizing a with
    | nil => exact ⟨h.2, h.2.lt_first⟩
    | cons y ys ih => exact ih h.2
  have hr := hseg2.1.right_head
  have hnext : post.headD t < m.length :=
    h.mem_lt _ (by have := Seg.headD_mem post t; simp at this ⊢; tauto)
  have hprev : prev < m.length := h.mem_lt _ (by simp at hpm ⊢; tauto)
  refine ⟨_, prev, removeNode_eq hseg2.2 hprev hnext hp hr, hpm, ?_, by simp, by simp, ?_⟩
  · refine h.remove hnd hp ?_ ?_
    · intro x
      rw [rightOf_setRight _ _ _ _ (by simpa using hprev), rightOf_setLeft]
    · intro x
      rw [leftOf_setRight, leftOf_setLeft _ _ _ _ hnext]
  · intro x h1
    rw [rightOf_setRight _ _ _ _ (by simpa using hprev), rightOf_setLeft, if_neg h1]

/-! ## Facts about a well-linked ring -/

theorem length_le_of_nodup_lt {xs : List Nat} {n : Nat} (hnd : xs.Nodup)
    (hlt : ∀ x ∈ xs, x < n) : xs.length ≤ n := by
  have h1 : xs.toFinset ⊆ Finset.range n := by
    intro x hx
    exact Finset.mem_range.mpr (hlt x (List.mem_toFinset.mp hx))
  have h2 := Finset.card_le_card h1
  rwa [List.toFinset_card_of_nodup hnd, Finset.card_range] at h2

namespace Ring

variable {l : LinkedList V} {h t : Nat} {ns : List Nat}

theorem tail_not_mem (r : Ring l h ns t) : t ∉ ns := by
  have := r.nodup
  simp only [List.nodup_cons, List.nodup_append] at this
  intro hc
  exact this.2.2.2 hc (by simp)

theorem head_not_mem (r : Ring l h ns t) : h ∉ ns := by
  have := (List.nodup_cons.mp r.nodup).1
  intro hc
  exact this (by simp [hc])

theorem head_ne_tail (r : Ring l h ns t) : h ≠ t := by
  have := (List.nodup_cons.mp r.nodup).1
  rintro rfl
  exact this (by simp)

theorem lt_head (r : Ring l h ns t) : h < l.mem.length := r.seg.mem_lt h (by simp)

theorem lt_tail (r : Ring l h ns t) : t < l.mem.length := r.seg.mem_lt t (by simp)

theorem lt_of_mem (r : Ring l h ns t) {x : Nat} (hx : x ∈ ns) : x < l.mem.length :=
  r.seg.mem_lt x (by simp [hx])

theorem length_le (r : Ring l h ns t) : ns.length ≤ l.mem.length := by
  have hnd : ns.Nodup := by
    have := r.nodup
    simp only [List.nodup_cons, List.nodup_append] at this
    exact this.2.1
  exact length_le_of_nodup_lt hnd (fun x hx => r.lt_of_mem hx)

theorem toNat_length (r : Ring l h ns t) : l.length.toNat = ns.length := by
  rw [r.len]; simp

theorem getNodeByIndex_eq (r : Ring l h ns t) (idx : Int) :
    getNodeByIndex l idx = some (some ((ns.drop idx.toNat).headD t)) := by
  unfold getNodeByIndex
  rw [r.head_eq, load_some r.lt_head, r.tail_eq]
  simp only [Option.some_bind, r.seg.right_head]
  exact getNodeByIndexLoop_seg r.seg r.tail_not_mem _

theorem nodesRight_eq (r : Ring l h ns t) : nodesRight l = some ns := by
  unfold nodesRight
  rw [r.head_eq, load_some r.lt_head, r.tail_eq]
  simp only [Option.some_bind, r.seg.right_head]
  exact walkRight_seg r.seg r.tail_not_mem _ r.length_le

theorem ToSlice_eq (r : Ring l h ns t) : ToSlice l = some (ns.map (valOf l.mem)) := by
  unfold ToSlice
  rw [r.head_eq, load_some r.lt_head, r.tail_eq]
  simp only [Option.some_bind, r.seg.right_head]
  rw [ToSliceLoop_seg r.seg r.tail_not_mem _ r.length_le]
  simp

/-- The cell that holds position `k`. -/
theorem headD_drop {k : Nat} (hk : k < ns.length) : (ns.drop k).headD t = ns[k] := by
  rw [List.drop_eq_getElem_cons hk]; rfl

theorem Get_eq (r : Ring l h ns t) {idx : Int} (hidx : idx < l.length)
    (hk : idx.toNat < ns.length) :
    Get l idx = some (((ns.map (valOf l.mem))[idx.toNat]?).join, none) := by
  unfold Get
  rw [if_neg (by omega), r.getNodeByIndex_eq, headD_drop hk]
  simp only [Option.some_bind]
  rw [load_some (r.lt_of_mem (List.getElem_mem _))]
  simp [List.getElem?_eq_getElem hk]

/-- Allocation does not disturb the ring. -/
theorem alloc (r : Ring l h ns t) (nd : doubleNode V) :
    Ring { l with mem := l.mem ++ [nd] } h ns t := by
  refine ⟨r.head_eq, r.tail_eq, r.nodup, ?_, r.len⟩
  refine r.seg.frame ?_ ?_
  · intro x hx
    have : x < l.mem.length := r.seg.mem_lt x (by simp at hx ⊢; tauto)
    simp only [rightOf_append]
    rw [if_neg (by omega)]
  · intro x hx
    have : x < l.mem.length := r.seg.mem_lt x (by simp at hx ⊢; tauto)
    simp only [leftOf_append]
    rw [if_neg (by omega)]

theorem fresh_not_mem (r : Ring l h ns t) : l.mem.length ∉ h :: (ns ++ [t]) := by
  intro hc
  have := r.seg.mem_lt _ hc
  omega

theorem nodup_insert (r : Ring l h ns t) (k : Nat) :
    (h :: ((ns.take k ++ l.mem.length :: ns.drop k) ++ [t])).Nodup := by
  have hnd := r.nodup
  have hf := r.fresh_not_mem
  rw [← List.take_append_drop k ns] at hnd hf
  have e1 : h :: ((ns.take k ++ l.mem.length :: ns.drop k) ++ [t])
      = (h :: ns.take k) ++ l.mem.length :: (ns.drop k ++ [t]) := by simp
  have e2 : h :: ((ns.take k ++ ns.drop k) ++ [t]) = (h :: ns.take k) ++ (ns.drop k ++ [t]) := by
    rw [List.cons_append, List.append_assoc]
  rw [e1, List.perm_middle.nodup_iff, List.nodup_cons, ← e2]
  exact ⟨hf, hnd⟩

theorem Insert_eq (r : Ring l h ns t) (v : Option V) {idx : Int} (hidx : idx ≤ l.length) :
    ∃ l2, Insert l idx v = some (l2, none) ∧
      Ring l2 h (ns.take idx.toNat ++ l.mem.length :: ns.drop idx.toNat) t ∧
      l2.mem.length = l.mem.length + 1 ∧
      (∀ x, x < l.mem.length → valOf l2.mem x = valOf l.mem x) ∧
      valOf l2.mem l.mem.length = v ∧
      rightOf l2.mem t = rightOf l.mem t ∧ l2.length = l.length + 1 := by
  have r0 := r.alloc { val := v, left := none, right := none }
  have hseg0 := r0.seg
  have hnd := r.nodup
  have hf := r.fresh_not_mem
  rw [← List.take_append_drop idx.toNat ns] at hseg0 hnd hf
  obtain ⟨m2, prev, hadd, hpm, hseg, hlen, hval, hright⟩ :=
    addBefore_seg hseg0 hnd (show l.mem.length < _ by simp) hf
  unfold Insert
  rw [if_neg (by omega)]
  simp only [GoDS.alloc]
  rw [r0.getNodeByIndex_eq]
  simp only [Option.some_bind]
  rw [hadd]
  refine ⟨_, rfl, ⟨r.head_eq, r.tail_eq, r.nodup_insert _, hseg, ?_⟩, by simp [hlen], ?_, ?_, ?_,
    rfl⟩
  · simp only [List.length_append, List.length_cons, List.length_take, List.length_drop]
    have := r.len
    omega
  · intro x hx
    simp only [hval, valOf_append]
    rw [if_neg (by omega)]
  · simp [hval, valOf_append]
  · have ht1 : t ≠ prev := by
      rintro rfl
      rcases List.mem_cons.mp hpm with hc | hc
      · exact r.head_ne_tail hc.symm
      · exact r.tail_not_mem (List.mem_of_mem_take hc)
    have ht2 : t ≠ l.mem.length := by
      have := r.lt_tail; omega
    simp only
    rw [hright t ht1 ht2, rightOf_append, if_neg ht2]

theorem addToTail_eq (l : LinkedList V) (node : Ptr) :
    addToTail l node = addBefore l.mem node l.tail := rfl

theorem Append_eq (r : Ring l h ns t) (v : Option V) :
    ∃ l2, Append l v = some l2 ∧ Ring l2 h (ns ++ [l.mem.length]) t ∧
      l2.mem.length = l.mem.length + 1 ∧
      (∀ x, x < l.mem.length → valOf l2.mem x = valOf l.mem x) ∧
      valOf l2.mem l.mem.length = v ∧
      rightOf l2.mem t = rightOf l.mem t ∧ l2.length = l.length + 1 := by
  have r0 := r.alloc { val := v, left := none, right := none }
  have hseg0 := r0.seg
  have hnd := r.nodup
  have hf := r.fresh_not_mem
  rw [← List.append_nil ns] at hseg0 hnd hf
  obtain ⟨m2, prev, hadd, hpm, hseg, hlen, hval, hright⟩ :=
    addBefore_seg hseg0 hnd (show l.mem.length < _ by simp) hf
  unfold Append
  simp only [GoDS.alloc, addToTail_eq, r.tail_eq]
  simp only [List.headD_nil] at hadd
  rw [hadd]
  have hnd2 := r.nodup_insert ns.length
  simp only [List.take_length, List.drop_length] at hnd2
  refine ⟨_, rfl, ⟨r.head_eq, rfl, hnd2, hseg, ?_⟩, by simp [hlen], ?_, ?_, ?_, rfl⟩
  · simp only [List.length_append, List.length_cons, List.length_nil]
    have := r.len
    omega
  · intro x hx
    simp only [hval, valOf_append]
    rw [if_neg (by omega)]
  · simp [hval, valOf_append]
  · have ht1 : t ≠ prev := by
      rintro rfl
      rcases List.mem_cons.mp hpm with hc | hc
      · exact r.head_ne_tail hc.symm
      · exact r.tail_not_mem hc
    have ht2 : t ≠ l.mem.length := by
      have := r.lt_tail; omega
    simp only
    rw [hright t ht1 ht2, rightOf_append, if_neg ht2]

theorem Remove_eq (r : Ring l h ns t) {idx : Int} (hidx : idx < l.length)
    (hk : idx.toNat < ns.length) :
    ∃ l2, Remove l idx = some (l2, none) ∧
      Ring l2 h (ns.take idx.toNat ++ ns.drop (idx.toNat + 1)) t ∧
      l2.mem.length = l.mem.length ∧
      (∀ x, valOf l2.mem x = valOf l.mem x) ∧
      rightOf l2.mem t = rightOf l.mem t ∧ l2.length = l.length - 1 := by
  have hseg0 := r.seg
  have hnd := r.nodup
  rw [← List.take_append_drop idx.toNat ns, List.drop_eq_getElem_cons hk] at hseg0 hnd
  obtain ⟨m2, prev, hrem, hpm, hseg, hlen, hval, hright⟩ := removeNode_seg hseg0 hnd
  unfold Remove
  rw [if_neg (by omega), r.getNodeByIndex_eq, headD_drop hk]
  simp only [Option.some_bind]
  rw [hrem]
  refine ⟨_, rfl, ⟨r.head_eq, r.tail_eq, ?_, hseg, ?_⟩, hlen, hval, ?_, rfl⟩
  · have e1 : h :: ((ns.take idx.toNat ++ ns[idx.toNat] :: ns.drop (idx.toNat + 1)) ++ [t])
        = (h :: ns.take idx.toNat) ++ ns[idx.toNat] :: (ns.drop (idx.toNat + 1) ++ [t]) := by
      rw [List.cons_append, List.append_assoc, List.cons_append]
    have e2 : h :: ((ns.take idx.toNat ++ ns.drop (idx.toNat + 1)) ++ [t])
        = (h :: ns.take idx.toNat) ++ (ns.drop (idx.toNat + 1) ++ [t]) := by
      rw [List.cons_append, List.append_assoc]
    rw [e1, List.perm_middle.nodup_iff, List.nodup_cons] at hnd
    rw [e2]
    exact hnd.2
  · simp only [List.length_append, List.length_take, List.length_drop]
    have := r.len
    omega
  · have ht1 : t ≠ prev := by
      rintro rfl
      rcases List.mem_cons.mp hpm with hc | hc
      · exact r.head_ne_tail hc.symm
      · exact r.tail_not_mem (List.mem_of_mem_take hc)
    exact hright t ht1

/-- Without a node at the index, `Remove` reaches `removeNode(tail)`, which
dereferences `tail.right`. -/
theorem Remove_panic (r : Ring l h ns t) (hnil : rightOf l.mem t = none) {idx : Int}
    (hidx : idx < l.length) (hk : ¬ idx.toNat < ns.length) : Remove l idx = none := by
  unfold Remove
  rw [if_neg (by omega), r.getNodeByIndex_eq]
  have : ns.drop idx.toNat = [] := List.drop_eq_nil_of_le (by omega)
  rw [this]
  simp only [Option.some_bind, List.headD_nil]
  unfold removeNode
  rw [load_some r.lt_tail]
  simp [hnil, storeLeft]

theorem Clear_eq (r : Ring l h ns t) :
    ∃ l2, Clear l = some l2 ∧ Ring l2 h [] t ∧ l2.mem.length = l.mem.length ∧
      (∀ x, valOf l2.mem x = valOf l.mem x) ∧
      rightOf l2.mem t = rightOf l.mem t ∧ l2.length = 0 := by
  unfold Clear
  rw [r.head_eq, r.tail_eq, storeRight_some r.lt_head]
  simp only [Option.some_bind]
  rw [storeLeft_some (by simpa using r.lt_tail)]
  refine ⟨_, rfl, ⟨rfl, rfl, ?_, ⟨?_, ?_⟩, rfl⟩, by simp, by simp, ?_, rfl⟩
  · simpa using r.head_ne_tail
  · simp [rightOf_setRight _ _ _ _ r.lt_head]
  · simp [leftOf_setLeft _ _ _ _ (show t < (setRight l.mem h (some t)).length by
      simpa using r.lt_tail)]
  · simp only [rightOf_setLeft]
    rw [rightOf_setRight _ _ _ _ r.lt_head, if_neg (Ne.symm r.head_ne_tail)]

end Ring

/-! ## The invariants of the data model and the ring -/

theorem follow_succ_end (next : Nat → Ptr) (k : Nat) (p : Ptr) :
    follow next (k + 1) p = (follow next k p).bind next := by
  induction k generalizing p with
  | zero => rfl
  | succ k ih =>
    show follow next (k + 1) (p.bind next) = _
    rw [ih]; rfl

theorem Seg.follow_right {m : Heap V} {ns : List Nat} {a t : Nat} (h : Seg m a ns t) :
    follow (rightOf m) (ns.length + 1) (some a) = some t := by
  induction ns generalizing a with
  | nil => exact h.1
  | cons x xs ih =>
    show follow (rightOf m) (xs.length + 1) ((some a).bind (rightOf m)) = some t
    rw [Option.some_bind, h.1.1]
    exact ih h.2

theorem Seg.follow_left {m : Heap V} {ns : List Nat} {a t : Nat} (h : Seg m a ns t) :
    follow (leftOf m) (ns.length + 1) (some t) = some a := by
  induction ns generalizing a with
  | nil => exact h.2
  | cons x xs ih =>
    rw [List.length_cons, follow_succ_end, ih h.2, Option.some_bind]
    exact h.1.2

theorem Seg.symm_links {m : Heap V} {ns : List Nat} {a t : Nat} (h : Seg m a ns t) :
    ∀ x ∈ a :: ns, (rightOf m x).bind (leftOf m) = some x := by
  induction ns generalizing a with
  | nil =>
    intro x hx
    simp only [List.mem_singleton] at hx
    subst hx
    rw [h.1, Option.some_bind, h.2]
  | cons y ys ih =>
    intro x hx
    rcases List.mem_cons.mp hx with rfl | hx
    · rw [h.1.1, Option.some_bind, h.1.2]
    · exact ih h.2 x hx

theorem Seg.suffix {m : Heap V} {pre post : List Nat} {a y t : Nat}
    (h : Seg m a (pre ++ y :: post) t) : Seg m y post t := by
  induction pre generalizing a with
  | nil => exact h.2
  | cons z zs ih => exact ih h.2

/-- Right-links are functional: two walks from `a` that stop at the first `t` agree. -/
theorem Seg.unique {m : Heap V} {us vs : List Nat} {a t : Nat} (hu : Seg m a us t)
    (hv : Seg m a vs t) (htu : t ∉ us) (htv : t ∉ vs) : us = vs := by
  induction us generalizing a vs with
  | nil =>
    cases vs with
    | nil => rfl
    | cons v vs =>
      have h1 := hu.1
      rw [hv.1.1] at h1
      simp only [Option.some.injEq] at h1
      exact absurd (by simp [h1]) htv
  | cons u us ih =>
    cases vs with
    | nil =>
      have h1 := hu.1.1
      rw [hv.1] at h1
      simp only [Option.some.injEq] at h1
      exact absurd (by simp [h1]) htu
    | cons v vs =>
      have h1 := hu.1.1
      rw [hv.1.1] at h1
      simp only [Option.some.injEq] at h1
      subst h1
      rw [ih hu.2 hv.2 (fun hc => htu (List.mem_cons_of_mem _ hc))
        (fun hc => htv (List.mem_cons_of_mem _ hc))]

theorem Seg.nodup_of_not_mem {m : Heap V} {ns : List Nat} {a t : Nat} (h : Seg m a ns t)
    (ht : t ∉ a :: ns) : (a :: ns).Nodup := by
  induction ns generalizing a with
  | nil => simp
  | cons x xs ih =>
    have ht2 : t ∉ x :: xs := fun hc => ht (List.mem_cons_of_mem _ hc)
    refine List.nodup_cons.mpr ⟨?_, ih h.2 ht2⟩
    intro hc
    obtain ⟨pre, post, hsplit⟩ := List.append_of_mem hc
    have hs : Seg m a (pre ++ a :: post) t := by rw [← hsplit]; exact h
    have hsub := hs.suffix
    have htp : t ∉ post := by
      intro hp
      apply ht2
      rw [hsplit]
      simp [hp]
    have := Seg.unique hsub h htp ht2
    have hlen := congrArg List.length this
    rw [hsplit] at hlen
    simp at hlen
    omega

theorem Ring.wellFormed {l : LinkedList V} {h t : Nat} {ns : List Nat} (r : Ring l h ns t) :
    WellFormed l := by
  have hlen : (l.length + 1).toNat = ns.length + 1 := by
    rw [r.len]; omega
  refine ⟨?_, ⟨?_, ?_⟩, ?_, ?_⟩
  · rw [r.head_eq, r.tail_eq]
    simpa using r.head_ne_tail
  · rw [hlen, r.head_eq, r.tail_eq]; exact r.seg.follow_right
  · rw [hlen, r.head_eq, r.tail_eq]; exact r.seg.follow_left
  · unfold lengthConsistent
    rw [r.nodesRight_eq, Option.map_some', r.len, r.head_eq, r.tail_eq]
    congr 2
    rw [List.filter_eq_self.mpr]
    intro x hx
    simp only [ne_eq, Option.some.injEq, decide_eq_true_eq]
    exact ⟨fun hc => r.head_not_mem (hc ▸ hx), fun hc => r.tail_not_mem (hc ▸ hx)⟩
  · unfold symmetry ringNodes
    rw [r.nodesRight_eq, r.head_eq]
    exact r.seg.symm_links

theorem walkRight_sound {m : Heap V} {tl : Ptr} (fuel : Nat) :
    ∀ (a : Nat) (p : Ptr) (ns : List Nat), walkRight m tl fuel p = some ns → rightOf m a = p →
      (∀ x ∈ a :: ns, (rightOf m x).bind (leftOf m) = some x) →
      ∃ t, tl = some t ∧ Seg m a ns t ∧ t ∉ ns := by
  have base : ∀ (a : Nat) (p : Ptr), p = tl → rightOf m a = p →
      (rightOf m a).bind (leftOf m) = some a → ∃ t, tl = some t ∧ Seg m a [] t ∧ t ∉ [] := by
    intro a p hp hr hs
    subst hp
    rw [hr] at hs
    cases p with
    | none => simp at hs
    | some t => exact ⟨t, rfl, ⟨hr, by simpa using hs⟩, by simp⟩
  induction fuel with
  | zero =>
    intro a p ns hw hr hs
    unfold walkRight at hw
    split at hw
    · rename_i hp
      simp only [Option.some.injEq] at hw
      subst hw
      exact base a p hp hr (hs a (by simp))
    · simp at hw
  | succ k ih =>
    intro a p ns hw hr hs
    unfold walkRight at hw
    split at hw
    · rename_i hp
      simp only [Option.some.injEq] at hw
      subst hw
      exact base a p hp hr (hs a (by simp))
    · rename_i hp
      cases p with
      | none => simp at hw
      | some x =>
        simp only [Option.some_bind, load] at hw
        cases hx : m[x]? with
        | none => simp [hx] at hw
        | some nd =>
          simp only [hx, Option.some_bind, Option.map_eq_some'] at hw
          obtain ⟨r, hwr, hns⟩ := hw
          subst hns
          have hrx : rightOf m x = nd.right := by simp [rightOf, hx]
          obtain ⟨t, htl, hseg, htr⟩ := ih x nd.right r hwr hrx
            (fun y hy => hs y (List.mem_cons_of_mem _ hy))
          refine ⟨t, htl, ⟨⟨hr, ?_⟩, hseg⟩, ?_⟩
          · have := hs a (by simp)
            rwa [hr, Option.some_bind] at this
          · intro hc
            rcases List.mem_cons.mp hc with rfl | hc
            · exact hp htl.symm
            · exact htr hc

/-- A well-formed list is a ring of pairwise distinct cells. -/
theorem WellFormed.toRing {l : LinkedList V} (w : WellFormed l) :
    ∃ h ns t, Ring l h ns t := by
  obtain ⟨hne, -, hlc, hsym⟩ := w
  unfold lengthConsistent at hlc
  obtain ⟨ns, hnodes, hcount⟩ := Option.map_eq_some'.mp hlc
  unfold symmetry ringNodes at hsym
  rw [hnodes] at hsym
  unfold nodesRight at hnodes
  cases hh : l.head with
  | none => simp [hh, load] at hnodes
  | some h =>
    rw [hh] at hnodes hsym hcount hne
    simp only [load, Option.some_bind] at hnodes
    cases hx : l.mem[h]? with
    | none => simp [hx] at hnodes
    | some hd =>
      simp only [hx, Option.some_bind] at hnodes
      have hrx : rightOf l.mem h = hd.right := by simp [rightOf, hx]
      obtain ⟨t, htl, hseg, htn⟩ := walkRight_sound _ h hd.right ns hnodes hrx hsym
      rw [htl] at hcount hne
      have hht : h ≠ t := fun hc => hne (by rw [hc])
      have htm : t ∉ h :: ns := by
        intro hc
        rcases List.mem_cons.mp hc with hc | hc
        · exact hht hc.symm
        · exact htn hc
      have hnd := hseg.nodup_of_not_mem htm
      have hhn : h ∉ ns := (List.nodup_cons.mp hnd).1
      refine ⟨h, ns, t, hh, htl, ?_, hseg, ?_⟩
      · rw [← List.cons_append, List.nodup_append]
        refine ⟨hnd, by simp, ?_⟩
        intro x hx1 hx2
        simp only [List.mem_singleton] at hx2
        exact htm (hx2 ▸ hx1)
      · rw [← hcount, List.filter_eq_self.mpr]
        intro x hx
        simp only [ne_eq, Option.some.injEq, decide_eq_true_eq]
        exact ⟨fun hc => hhn (hc ▸ hx), fun hc => htn (hc ▸ hx)⟩

/-! ## Reachable lists -/

theorem Ring.newLinkedList : Ring (NewLinkedList : LinkedList V) 0 [] 1 :=
  ⟨rfl, rfl, by simp, ⟨rfl, rfl⟩, rfl⟩

/-- Every reachable list is a ring whose `tail` sentinel has a `nil` right link. -/
theorem Reachable.ring_tail_nil [GoEq V] {l : LinkedList V} (hr : Reachable l) :
    ∃ h ns t, Ring l h ns t ∧ rightOf l.mem t = none := by
  induction hr with
  | new => exact ⟨0, [], 1, Ring.newLinkedList, rfl⟩
  | @step l l2 op _ hrun ih =>
    obtain ⟨h, ns, t, r, hnil⟩ := ih
    have keep : ∀ {α : Type} (o : Option α), (o.map fun _ => l) = some l2 →
        ∃ h ns t, Ring l2 h ns t ∧ rightOf l2.mem t = none := by
      intro α o ho
      obtain ⟨_, _, rfl⟩ := Option.map_eq_some'.mp ho
      exact ⟨h, ns, t, r, hnil⟩
    cases op with
    | append v =>
      obtain ⟨l3, h1, r3, -, -, -, hright, -⟩ := r.Append_eq v
      simp only [Op.run, h1, Option.some.injEq] at hrun
      subst hrun
      exact ⟨h, _, t, r3, hright ▸ hnil⟩
    | insert idx v =>
      by_cases hidx : idx ≤ l.length
      · obtain ⟨l3, h1, r3, -, -, -, hright, -⟩ := r.Insert_eq v hidx
        simp only [Op.run, h1, Option.map_some', Option.some.injEq] at hrun
        subst hrun
        exact ⟨h, _, t, r3, hright ▸ hnil⟩
      · simp only [Op.run, Insert, gt_iff_lt, if_pos (not_le.mp hidx), Option.map_some',
          Option.some.injEq] at hrun
        subst hrun
        exact ⟨h, ns, t, r, hnil⟩
    | remove idx =>
      by_cases hidx : idx < l.length
      · by_cases hk : idx.toNat < ns.length
        · obtain ⟨l3, h1, r3, -, -, hright, -⟩ := r.Remove_eq hidx hk
          simp only [Op.run, h1, Option.map_some', Option.some.injEq] at hrun
          subst hrun
          exact ⟨h, _, t, r3, hright ▸ hnil⟩
        · simp [Op.run, r.Remove_panic hnil hidx hk] at hrun
      · simp only [Op.run, Remove, ge_iff_le, if_pos (not_lt.mp hidx), Option.map_some',
          Option.some.injEq] at hrun
        subst hrun
        exact ⟨h, ns, t, r, hnil⟩
    | get idx => exact keep _ hrun
    | index v => exact keep _ hrun
    | front => exact keep _ hrun
    | back => exact keep _ hrun
    | empty =>
      simp only [Op.run, Option.some.injEq] at hrun
      subst hrun
      exact ⟨h, ns, t, r, hnil⟩
    | length =>
      simp only [Op.run, Option.some.injEq] at hrun
      subst hrun
      exact ⟨h, ns, t, r, hnil⟩
    | clear =>
      obtain ⟨l3, h1, r3, -, -, hright, -⟩ := r.Clear_eq
      simp only [Op.run, h1, Option.some.injEq] at hrun
      subst hrun
      exact ⟨h, _, t, r3, hright ▸ hnil⟩
    | toSlice => exact keep _ hrun

theorem map_valOf_congr {m m2 : Heap V} {xs : List Nat}
    (hlt : ∀ x ∈ xs, x < m.length) (hval : ∀ x, x < m.length → valOf m2 x = valOf m x) :
    xs.map (valOf m2) = xs.map (valOf m) :=
  List.map_congr_left fun x hx => hval x (hlt x hx)

theorem Ring.toSlice_inj {l : LinkedList V} {h t : Nat} {ns : List Nat} (r : Ring l h ns t)
    {s : List (Option V)} (hs : ToSlice l = some s) : s = ns.map (valOf l.mem) := by
  rw [r.ToSlice_eq] at hs
  exact (Option.some.inj hs).symm

theorem Ring.appendAll_eq {l : LinkedList V} {h t : Nat} {ns : List Nat} (r : Ring l h ns t)
    (vs : List (Option V)) :
    ∃ l2 ns2, appendAll l vs = some l2 ∧ Ring l2 h ns2 t ∧
      ns2.map (valOf l2.mem) = ns.map (valOf l.mem) ++ vs ∧
      l2.length = l.length + vs.length := by
  induction vs generalizing l ns with
  | nil => exact ⟨l, ns, rfl, r, by simp, by simp⟩
  | cons v vs ih =>
    obtain ⟨l1, happ, r1, -, hval, hnew, -, hlen⟩ := r.Append_eq v
    obtain ⟨l2, ns2, hall, r2, hmap, hlen2⟩ := ih r1
    refine ⟨l2, ns2, ?_, r2, ?_, ?_⟩
    · simp only [appendAll, happ, Option.some_bind, hall]
    · rw [hmap, List.map_append, List.map_singleton, hnew,
        map_valOf_congr (fun x hx => r.lt_of_mem hx) hval]
      simp
    · rw [hlen2, hlen, List.length_cons]; push_cast; ring

theorem Ring.Get_eq_iff {l : LinkedList V} {h t : Nat} {ns : List Nat} (r : Ring l h ns t)
    {i : Int} (h0 : 0 ≤ i) (hi : i < l.length) (v : Option V) :
    Get l i = some (v, none) ↔ (ns.map (valOf l.mem))[i.toNat]? = some v := by
  have hk : i.toNat < ns.length := by
    have := r.len; omega
  rw [r.Get_eq hi hk]
  simp [List.getElem?_eq_getElem hk]

theorem Ring.Index_eq [GoEq V] {l : LinkedList V} {h t : Nat} {ns : List Nat}
    (r : Ring l h ns t) (v : Option V) :
    Index l v = IndexLoop l.mem v ns.length 0 (some (ns.headD t)) := by
  unfold Index
  rw [r.head_eq, load_some r.lt_head]
  simp only [Option.some_bind, r.seg.right_head, r.toNat_length]

/-! ## Front and back -/

theorem Seg.left_last {m : Heap V} {ns : List Nat} {a t : Nat} (h : Seg m a ns t) :
    leftOf m t = some (ns.getLastD a) := by
  induction ns generalizing a with
  | nil => exact h.2
  | cons x xs ih => rw [List.getLastD_cons]; exact ih h.2

theorem getLastD_mem_cons (ns : List Nat) (a : Nat) : ns.getLastD a ∈ a :: ns := by
  induction ns generalizing a with
  | nil => simp
  | cons x xs ih =>
    rw [List.getLastD_cons]
    exact List.mem_cons_of_mem _ (ih x)

theorem Ring.Front_eq {l : LinkedList V} {h t : Nat} {ns : List Nat} (r : Ring l h ns t) :
    Front l = some ((ns.map (valOf l.mem)).head?.join) := by
  unfold Front Empty
  cases ns with
  | nil =>
    have := r.len
    simp [this]
  | cons x xs =>
    have hlen := r.len
    have hne : ¬ (l.length == 0) = true := by
      simp only [beq_iff_eq, hlen, List.length_cons]; omega
    rw [if_neg hne, r.head_eq, load_some r.lt_head]
    simp only [Option.some_bind, r.seg.right_head, List.headD_cons]
    rw [load_some (r.lt_of_mem (List.mem_cons_self _ _))]
    simp

theorem Ring.Back_eq {l : LinkedList V} {h t : Nat} {ns : List Nat} (r : Ring l h ns t) :
    Back l = some ((ns.map (valOf l.mem)).getLast?.join) := by
  unfold Back Empty
  cases ns with
  | nil =>
    have := r.len
    simp [this]
  | cons x xs =>
    have hlen := r.len
    have hne : ¬ (l.length == 0) = true := by
      simp only [beq_iff_eq, hlen, List.length_cons]; omega
    have hmem : (x :: xs).getLastD h ∈ x :: xs := by
      rw [List.getLastD_cons]; exact getLastD_mem_cons xs x
    rw [if_neg hne, r.tail_eq, load_some r.lt_tail]
    simp only [Option.some_bind, r.seg.left_last]
    rw [load_some (r.lt_of_mem hmem)]
    simp only [Option.map_some', List.getLast?_map, Option.some.injEq]
    rw [List.getLastD_cons, List.getLast?_cons]
    simp

theorem Ring.drainFront_eq {l : LinkedList V} {h t : Nat} {ns : List Nat} (r : Ring l h ns t) :
    ∃ l2, drainFront ns.length l =
        some ((ns.map (valOf l.mem)).map (fun v => (v, (v, none), none)), l2) ∧
      Ring l2 h [] t := by
  induction ns generalizing l with
  | nil => exact ⟨l, rfl, r⟩
  | cons x xs ih =>
    have hlen := r.len
    have hidx : (0 : Int) < l.length := by
      rw [hlen, List.length_cons]; omega
    have hk : (0 : Int).toNat < (x :: xs).length := by simp
    obtain ⟨l1, hrem, r1, -, hval, -, -⟩ := r.Remove_eq hidx hk
    simp only [Int.toNat_zero, List.take_zero, List.nil_append, zero_add, List.drop_succ_cons,
      List.drop_zero] at r1
    obtain ⟨l2, hdrain, r2⟩ := ih r1
    refine ⟨l2, ?_, r2⟩
    simp only [drainFront, List.length_cons, r.Front_eq, r.Get_eq hidx hk, hrem,
      Option.some_bind, hdrain, Option.map_some']
    simp only [List.map_cons, List.head?_cons, Option.join, Option.some_bind, Int.toNat_zero,
      List.getElem?_cons_zero, id]
    rw [List.map_congr_left fun y _ => hval y]

/-! ## The list as a sequence of values -/

theorem IndexLoop_firstIndex [GoEq V] {m : Heap V} {ns : List Nat} {a t : Nat}
    (h : Seg m a ns t) (v : Option V) (i : Int) :
    IndexLoop m v ns.length i (some (ns.headD t)) = firstIndex v (ns.map (valOf m)) i := by
  induction ns generalizing a i with
  | nil => simp [IndexLoop, firstIndex]
  | cons x xs ih =>
    simp only [IndexLoop, List.headD_cons, List.length_cons, List.map_cons, firstIndex]
    rw [load_some h.2.lt_first]
    simp only [Option.some_bind, h.2.right_head, reduceCtorEq, if_false]
    cases ifaceEq (valOf m x) v with
    | none => rfl
    | some b =>
      simp only [Option.some_bind]
      cases b with
      | true => rfl
      | false => simpa using ih h.2 (i + 1)

theorem firstIndex_isSome [GoEq V] (v : Option V) (s : List (Option V)) :
    ∀ (i : Int), (∀ x ∈ s, (ifaceEq x v).isSome = true) → ∃ r, firstIndex v s i = some r := by
  induction s with
  | nil => intro i _; exact ⟨-1, rfl⟩
  | cons x xs ih =>
    intro i hs
    obtain ⟨b, hb⟩ := Option.isSome_iff_exists.mp (hs x (List.mem_cons_self _ _))
    simp only [firstIndex, hb, Option.some_bind]
    cases b with
    | true => exact ⟨i, rfl⟩
    | false => simpa using ih (i + 1) (fun y hy => hs y (List.mem_cons_of_mem _ hy))

theorem firstIndex_spec [GoEq V] (v : Option V) (s : List (Option V)) :
    ∀ (i : Int), (∀ x ∈ s, (ifaceEq x v).isSome = true) →
      ∃ r, firstIndex v s i = some r ∧
        ((r = -1 ∧ ∀ x ∈ s, ifaceEq x v = some false) ∨
         (∃ j : Nat, j < s.length ∧ r = i + j ∧
            (∃ x, s[j]? = some x ∧ ifaceEq x v = some true) ∧
            ∀ j2 : Nat, j2 < j → ∀ y, s[j2]? = some y → ifaceEq y v = some false)) := by
  induction s with
  | nil => intro i _; exact ⟨-1, rfl, Or.inl ⟨rfl, by simp⟩⟩
  | cons x xs ih =>
    intro i hs
    obtain ⟨b, hb⟩ := Option.isSome_iff_exists.mp (hs x (List.mem_cons_self _ _))
    simp only [firstIndex, hb, Option.some_bind]
    cases b with
    | true =>
      exact ⟨i, rfl, Or.inr ⟨0, by simp, by simp, ⟨x, by simp, hb⟩, by simp⟩⟩
    | false =>
      obtain ⟨r, hr, hcase⟩ := ih (i + 1) (fun y hy => hs y (List.mem_cons_of_mem _ hy))
      refine ⟨r, by simpa using hr, ?_⟩
      rcases hcase with ⟨h1, h2⟩ | ⟨j, hj, hrj, ⟨y, hy, hyv⟩, hmin⟩
      · left
        refine ⟨h1, ?_⟩
        intro y hy
        rcases List.mem_cons.mp hy with rfl | hy
        · exact hb
        · exact h2 y hy
      · right
        refine ⟨j + 1, by simp only [List.length_cons]; omega, by rw [hrj]; push_cast; ring,
          ⟨y, by simpa using hy, hyv⟩, ?_⟩
        intro j2 hj2 z hz
        cases j2 with
        | zero =>
          simp only [List.getElem?_cons_zero, Option.some.injEq] at hz
          subst hz
          exact hb
        | succ j3 => exact hmin j3 (by omega) z (by simpa using hz)

theorem Ring.call_onSeq_of_some [GoEq V] {l : LinkedList V} {h t : Nat} {ns : List Nat}
    (op : Op V) (X : List (Option V) × Obs V)
    (hX : op.onSeq (ns.map (valOf l.mem)) = some X)
    (hc : ∃ l2 ns2, op.call l = some (l2, X.2) ∧ Ring l2 h ns2 t ∧
      ns2.map (valOf l2.mem) = X.1) :
    (op.onSeq (ns.map (valOf l.mem)) = none → op.call l = none) ∧
    (∀ s2 o, op.onSeq (ns.map (valOf l.mem)) = some (s2, o) →
      ∃ l2 ns2, op.call l = some (l2, o) ∧ Ring l2 h ns2 t ∧ ns2.map (valOf l2.mem) = s2) := by
  refine ⟨fun hn => ?_, fun s2 o hs => ?_⟩
  · rw [hX] at hn; cases hn
  · rw [hX] at hs
    cases hs
    exact hc

/-- Every call with a non-negative index acts on a ring as `Op.onSeq` acts on the
sequence of its values: it panics when `Op.onSeq` does, and otherwise returns the same
value and leaves a ring that holds the sequence `Op.onSeq` gives. -/
theorem Ring.call_onSeq [GoEq V] {l : LinkedList V} {h t : Nat} {ns : List Nat}
    (r : Ring l h ns t) (op : Op V) (hop : op.nonneg = true) :
    (op.onSeq (ns.map (valOf l.mem)) = none → op.call l = none) ∧
    (∀ s2 o, op.onSeq (ns.map (valOf l.mem)) = some (s2, o) →
      ∃ l2 ns2, op.call l = some (l2, o) ∧ Ring l2 h ns2 t ∧ ns2.map (valOf l2.mem) = s2) := by
  have hlen := r.len
  cases op with
  | append v =>
    refine Ring.call_onSeq_of_some _ _ rfl ?_
    obtain ⟨l2, happ, r2, -, hval, hnew, -, -⟩ := r.Append_eq v
    refine ⟨l2, _, by simp [Op.call, happ], r2, ?_⟩
    rw [List.map_append, List.map_singleton, hnew,
      map_valOf_congr (fun x hx => r.lt_of_mem hx) hval]
  | insert idx v =>
    refine Ring.call_onSeq_of_some _ _ rfl ?_
    have h0 : 0 ≤ idx := by simpa [Op.nonneg] using hop
    by_cases hidx : idx ≤ l.length
    · obtain ⟨l2, hins, r2, -, hval, hnew, -, -⟩ := r.Insert_eq v hidx
      have hng : ¬ idx > ((ns.map (valOf l.mem)).length : Int) := by
        rw [List.length_map]; omega
      refine ⟨l2, _, by simp only [Op.call, hins, Option.map_some']; rw [if_neg hng],
        r2, ?_⟩
      rw [if_neg hng]
      simp only
      rw [List.map_append, List.map_cons, hnew, ← List.map_take, ← List.map_drop,
        map_valOf_congr (fun x hx => r.lt_of_mem (List.mem_of_mem_take hx)) hval,
        map_valOf_congr (fun x hx => r.lt_of_mem (List.mem_of_mem_drop hx)) hval]
    · have hgt : idx > ((ns.map (valOf l.mem)).length : Int) := by
        rw [List.length_map]; omega
      have hI : Insert l idx v = some (l, some
          { format := "index must be in [0, %v], got index %v", args := [l.length, idx] }) := by
        unfold Insert; rw [if_pos (not_le.mp hidx)]
      refine ⟨l, ns, ?_, r, by rw [if_pos hgt]⟩
      simp only [Op.call, hI, Option.map_some']
      rw [if_pos hgt]
      simp only [List.length_map, hlen]
  | remove idx =>
    refine Ring.call_onSeq_of_some _ _ rfl ?_
    have h0 : 0 ≤ idx := by simpa [Op.nonneg] using hop
    by_cases hidx : idx < l.length
    · have hk : idx.toNat < ns.length := by omega
      obtain ⟨l2, hrem, r2, -, hval, -, -⟩ := r.Remove_eq hidx hk
      have hng : ¬ idx ≥ ((ns.map (valOf l.mem)).length : Int) := by
        rw [List.length_map]; omega
      refine ⟨l2, _, by simp only [Op.call, hrem, Option.map_some']; rw [if_neg hng],
        r2, ?_⟩
      rw [if_neg hng]
      simp only
      have hfun : valOf l2.mem = valOf l.mem := funext hval
      rw [List.map_append, ← List.map_take, ← List.map_drop, hfun]
    · have hge : idx ≥ ((ns.map (valOf l.mem)).length : Int) := by
        rw [List.length_map]; omega
      have hR : Remove l idx = some (l, some (outOfRangeError l idx)) := by
        unfold Remove; rw [if_pos (not_lt.mp hidx)]
      refine ⟨l, ns, ?_, r, by rw [if_pos hge]⟩
      simp only [Op.call, hR, Option.map_some']
      rw [if_pos hge]
      simp only [List.length_map, hlen, outOfRangeError]
  | get idx =>
    refine Ring.call_onSeq_of_some _ _ rfl ?_
    have h0 : 0 ≤ idx := by simpa [Op.nonneg] using hop
    by_cases hidx : idx < l.length
    · have hk : idx.toNat < ns.length := by omega
      have hng : ¬ idx ≥ ((ns.map (valOf l.mem)).length : Int) := by
        rw [List.length_map]; omega
      refine ⟨l, ns, ?_, r, by rw [if_neg hng]⟩
      simp only [Op.call, r.Get_eq hidx hk, Option.map_some']
      rw [if_neg hng]
    · have hge : idx ≥ ((ns.map (valOf l.mem)).length : Int) := by
        rw [List.length_map]; omega
      have hG : Get l idx = some (none, some (outOfRangeError l idx)) := by
        unfold Get; rw [if_pos (not_lt.mp hidx)]
      refine ⟨l, ns, ?_, r, by rw [if_pos hge]⟩
      simp only [Op.call, hG, Option.map_some']
      rw [if_pos hge]
      simp only [List.length_map, hlen, outOfRangeError]
  | index v =>
    have hI : Index l v = firstIndex v (ns.map (valOf l.mem)) 0 := by
      rw [r.Index_eq, IndexLoop_firstIndex r.seg]
    refine ⟨fun hn => ?_, fun s2 o hs => ?_⟩
    · simp only [Op.onSeq, Option.map_eq_none'] at hn
      simp only [Op.call, hI, hn, Option.map_none']
    · simp only [Op.onSeq, Option.map_eq_some', Prod.mk.injEq] at hs
      obtain ⟨i, hi, rfl, rfl⟩ := hs
      exact ⟨l, ns, by simp only [Op.call, hI, hi, Option.map_some'], r, rfl⟩
  | front =>
    refine Ring.call_onSeq_of_some _ _ rfl ?_
    exact ⟨l, ns, by simp only [Op.call, r.Front_eq, Option.map_some'], r, rfl⟩
  | back =>
    refine Ring.call_onSeq_of_some _ _ rfl ?_
    exact ⟨l, ns, by simp only [Op.call, r.Back_eq, Option.map_some'], r, rfl⟩
  | empty =>
    refine Ring.call_onSeq_of_some _ _ rfl ?_
    exact ⟨l, ns, by simp only [Op.call, Empty, List.length_map, hlen], r, rfl⟩
  | length =>
    refine Ring.call_onSeq_of_some _ _ rfl ?_
    exact ⟨l, ns, by simp only [Op.call, Length, List.length_map, hlen], r, rfl⟩
  | clear =>
    refine Ring.call_onSeq_of_some _ _ rfl ?_
    obtain ⟨l2, hcl, r2, -, -, -, -⟩ := r.Clear_eq
    exact ⟨l2, [], by simp only [Op.call, hcl, Option.map_some'], r2, rfl⟩
  | toSlice =>
    refine Ring.call_onSeq_of_some _ _ rfl ?_
    exact ⟨l, ns, by simp only [Op.call, r.ToSlice_eq, Option.map_some'], r, rfl⟩

/-- Two rings that hold the same sequence of values cannot be told apart by calls with
non-negative indices. -/
theorem Ring.observe_eq [GoEq V] (ops : List (Op V)) :
    ∀ {l l2 : LinkedList V} {h t h2 t2 : Nat} {ns ns2 : List Nat}, Ring l h ns t →
      Ring l2 h2 ns2 t2 → ns.map (valOf l.mem) = ns2.map (valOf l2.mem) →
      (∀ op ∈ ops, op.nonneg = true) → observe ops l = observe ops l2 := by
  induction ops with
  | nil => intros; rfl
  | cons op ops ih =>
    intro l l2 h t h2 t2 ns ns2 r r2 hs hops
    have ha := r.call_onSeq op (hops op (List.mem_cons_self _ _))
    have hb := r2.call_onSeq op (hops op (List.mem_cons_self _ _))
    rw [← hs] at hb
    cases hseq : op.onSeq (ns.map (valOf l.mem)) with
    | none => simp only [observe, ha.1 hseq, hb.1 hseq]
    | some X =>
      obtain ⟨la, nsa, hca, ra, hsa⟩ := ha.2 X.1 X.2 hseq
      obtain ⟨lb, nsb, hcb, rb, hsb⟩ := hb.2 X.1 X.2 hseq
      simp only [observe, hca, hcb]
      rw [ih ra rb (by rw [hsa, hsb]) (fun o ho => hops o (List.mem_cons_of_mem _ ho))]

theorem Ring.Get_returns {l : LinkedList V} {h t : Nat} {ns : List Nat} (r : Ring l h ns t)
    (idx : Int) : ∃ x e, Get l idx = some (x, e) := by
  by_cases hidx : idx ≥ l.length
  · exact ⟨_, _, by rw [Get, if_pos hidx]⟩
  · have hmem : (ns.drop idx.toNat).headD t ∈ h :: (ns ++ [t]) := by
      have h1 := Seg.headD_mem (ns.drop idx.toNat) t
      rcases List.mem_append.mp h1 with h2 | h2
      · exact List.mem_cons_of_mem _ (List.mem_append_left _ (List.mem_of_mem_drop h2))
      · exact List.mem_cons_of_mem _ (List.mem_append_right _ h2)
    refine ⟨valOf l.mem ((ns.drop idx.toNat).headD t), none, ?_⟩
    rw [Get, if_neg hidx, r.getNodeByIndex_eq]
    simp only [Option.some_bind]
    rw [load_some (r.seg.mem_lt _ hmem)]
    rfl

/-! ## The scan of `Index` on an arbitrary store -/

theorem IndexLoopSteps_fst [GoEq V] (m : Heap V) (v : Option V) (k : Nat) :
    ∀ (i : Int) (p : Ptr) (n : Nat),
      (IndexLoopSteps m v k i p n).map Prod.fst = IndexLoop m v k i p := by
  induction k with
  | zero => intro i p n; rfl
  | succ k ih =>
    intro i p n
    simp only [IndexLoopSteps, IndexLoop]
    split
    · rfl
    · cases load m p with
      | none => rfl
      | some nd =>
        simp only [Option.some_bind]
        cases ifaceEq nd.val v with
        | none => rfl
        | some b =>
          simp only [Option.some_bind]
          cases b with
          | true => rfl
          | false => simpa using ih _ _ _

theorem IndexLoopSteps_le [GoEq V] (m : Heap V) (v : Option V) (k : Nat) :
    ∀ (i : Int) (p : Ptr) (n : Nat) (r : Int) (n2 : Nat),
      IndexLoopSteps m v k i p n = some (r, n2) → n2 ≤ n + k := by
  induction k with
  | zero =>
    intro i p n r n2 h
    simp only [IndexLoopSteps, Option.some.injEq, Prod.mk.injEq] at h
    omega
  | succ k ih =>
    intro i p n r n2 h
    simp only [IndexLoopSteps] at h
    split at h
    · simp only [Option.some.injEq, Prod.mk.injEq] at h
      omega
    · cases hl : load m p with
      | none => simp [hl] at h
      | some nd =>
        simp only [hl, Option.some_bind] at h
        cases hb : ifaceEq nd.val v with
        | none => simp [hb] at h
        | some b =>
          simp only [hb, Option.some_bind] at h
          cases b with
          | true =>
            simp only [if_true, Option.some.injEq, Prod.mk.injEq] at h
            omega
          | false =>
            simp only [Bool.false_eq_true, if_false] at h
            have := ih _ _ _ _ _ h
            omega

theorem IndexLoopSteps_returns [GoEq V] (m : Heap V) (v : Option V)
    (hclosed : ∀ nd ∈ m, ∀ a, nd.right = some a → a < m.length)
    (hcmp : ∀ nd ∈ m, (ifaceEq nd.val v).isSome = true) (k : Nat) :
    ∀ (i : Int) (p : Ptr) (n : Nat), (∀ a, p = some a → a < m.length) →
      ∃ r n2, IndexLoopSteps m v k i p n = some (r, n2) := by
  induction k with
  | zero => intro i p n _; exact ⟨-1, n, rfl⟩
  | succ k ih =>
    intro i p n hp
    simp only [IndexLoopSteps]
    split
    · exact ⟨-1, n, rfl⟩
    · cases p with
      | none => contradiction
      | some a =>
        have ha := hp a rfl
        simp only [load, Option.some_bind, List.getElem?_eq_getElem ha]
        obtain ⟨b, hb⟩ := Option.isSome_iff_exists.mp (hcmp _ (List.getElem_mem ha))
        simp only [hb, Option.some_bind]
        cases b with
        | true => exact ⟨i, n + 1, rfl⟩
        | false => simpa using ih _ _ _ (hclosed _ (List.getElem_mem ha))

/-! ## Index-to-node traversal -/

theorem Seg.follow_right_nth {m : Heap V} {ns : List Nat} {a t : Nat} (h : Seg m a ns t)
    (k : Nat) (hk : k < ns.length) :
    follow (rightOf m) (k + 1) (some a) = some ns[k] := by
  induction ns generalizing a k with
  | nil => simp at hk
  | cons x xs ih =>
    show follow (rightOf m) k ((some a).bind (rightOf m)) = _
    rw [Option.some_bind, h.1.1]
    cases k with
    | zero => rfl
    | succ k =>
      simp only [List.length_cons, Nat.add_lt_add_iff_right] at hk
      simpa using ih h.2 k hk

/-- Every reachable list is a ring whose `tail` sentinel has a nil right link and holds
no value. -/
theorem Reachable.ring_tail_clean [GoEq V] {l : LinkedList V} (hr : Reachable l) :
    ∃ h ns t, Ring l h ns t ∧ rightOf l.mem t = none ∧ valOf l.mem t = none := by
  induction hr with
  | new => exact ⟨0, [], 1, Ring.newLinkedList, rfl, rfl⟩
  | @step l l2 op _ hrun ih =>
    obtain ⟨h, ns, t, r, hnil, hv⟩ := ih
    have keep : ∀ {α : Type} (o : Option α), (o.map fun _ => l) = some l2 →
        ∃ h ns t, Ring l2 h ns t ∧ rightOf l2.mem t = none ∧ valOf l2.mem t = none := by
      intro α o ho
      obtain ⟨_, _, rfl⟩ := Option.map_eq_some'.mp ho
      exact ⟨h, ns, t, r, hnil, hv⟩
    cases op with
    | append v =>
      obtain ⟨l3, h1, r3, -, hval, -, hright, -⟩ := r.Append_eq v
      simp only [Op.run, h1, Option.some.injEq] at hrun
      subst hrun
      exact ⟨h, _, t, r3, hright ▸ hnil, (hval t r.lt_tail) ▸ hv⟩
    | insert idx v =>
      by_cases hidx : idx ≤ l.length
      · obtain ⟨l3, h1, r3, -, hval, -, hright, -⟩ := r.Insert_eq v hidx
        simp only [Op.run, h1, Option.map_some', Option.some.injEq] at hrun
        subst hrun
        exact ⟨h, _, t, r3, hright ▸ hnil, (hval t r.lt_tail) ▸ hv⟩
      · simp only [Op.run, Insert, gt_iff_lt, if_pos (not_le.mp hidx), Option.map_some',
          Option.some.injEq] at hrun
        subst hrun
        exact ⟨h, ns, t, r, hnil, hv⟩
    | remove idx =>
      by_cases hidx : idx < l.length
      · by_cases hk : idx.toNat < ns.length
        · obtain ⟨l3, h1, r3, -, hval, hright, -⟩ := r.Remove_eq hidx hk
          simp only [Op.run, h1, Option.map_some', Option.some.injEq] at hrun
          subst hrun
          exact ⟨h, _, t, r3, hright ▸ hnil, (hval t) ▸ hv⟩
        · simp [Op.run, r.Remove_panic hnil hidx hk] at hrun
      · simp only [Op.run, Remove, ge_iff_le, if_pos (not_lt.mp hidx), Option.map_some',
          Option.some.injEq] at hrun
        subst hrun
        exact ⟨h, ns, t, r, hnil, hv⟩
    | get idx => exact keep _ hrun
    | index v => exact keep _ hrun
    | front => exact keep _ hrun
    | back => exact keep _ hrun
    | empty =>
      simp only [Op.run, Option.some.injEq] at hrun
      subst hrun
      exact ⟨h, ns, t, r, hnil, hv⟩
    | length =>
      simp only [Op.run, Option.some.injEq] at hrun
      subst hrun
      exact ⟨h, ns, t, r, hnil, hv⟩
    | clear =>
      obtain ⟨l3, h1, r3, -, hval, hright, -⟩ := r.Clear_eq
      simp only [Op.run, h1, Option.some.injEq] at hrun
      subst hrun
      exact ⟨h, _, t, r3, hright ▸ hnil, (hval t) ▸ hv⟩
    | toSlice => exact keep _ hrun

/-! ## The exact effect of the splice primitives -/

theorem addBefore_effect {m : Heap V} {new cur prev : Nat} (hnew : new < m.length)
    (hcur : cur < m.length) (hprev : prev < m.length) (hl : leftOf m cur = some prev)
    (hne : new ≠ cur) :
    ∃ m2, addBefore m (some new) (some cur) = some m2 ∧ m2.length = m.length ∧
      (∀ x, rightOf m2 x =
        if x = prev then some new else if x = new then some cur else rightOf m x) ∧
      (∀ x, leftOf m2 x =
        if x = cur then some new else if x = new then some prev else leftOf m x) ∧
      (∀ x, valOf m2 x = valOf m x) := by
  refine ⟨_, addBefore_eq hnew hcur hprev hl hne, by simp, ?_, ?_, by simp⟩
  · intro x
    rw [rightOf_setLeft, rightOf_setRight _ _ _ _ (by simpa using hprev),
      rightOf_setRight _ _ _ _ (by simpa using hnew), rightOf_setLeft]
  · intro x
    rw [leftOf_setLeft _ _ _ _ (by simpa using hcur), leftOf_setRight, leftOf_setRight,
      leftOf_setLeft _ _ _ _ hnew]

theorem removeNode_effect {m : Heap V} {node prev next : Nat} (hnode : node < m.length)
    (hprev : prev < m.length) (hnext : next < m.length)
    (hl : leftOf m node = some prev) (hr : rightOf m node = some next) :
    ∃ m2, removeNode m (some node) = some m2 ∧ m2.length = m.length ∧
      (∀ x, rightOf m2 x = if x = prev then some next else rightOf m x) ∧
      (∀ x, leftOf m2 x = if x = next then some prev else leftOf m x) ∧
      (∀ x, valOf m2 x = valOf m x) := by
  refine ⟨_, removeNode_eq hnode hprev hnext hl hr, by simp, ?_, ?_, by simp⟩
  · intro x
    rw [rightOf_setRight _ _ _ _ (by simpa using hprev), rightOf_setLeft]
  · intro x
    rw [leftOf_setRight, leftOf_setLeft _ _ _ _ hnext]

/-- The cell before the first cell after a prefix is linked to it. -/
theorem Seg.linked_before {m : Heap V} {pre post : List Nat} {a t : Nat}
    (h : Seg m a (pre ++ post) t) : ∃ prev, prev ∈ a :: pre ∧ linked m prev (post.headD t) := by
  induction pre generalizing a with
  | nil =>
    cases post with
    | nil => exact ⟨a, by simp, h⟩
    | cons c cs => exact ⟨a, by simp, h.1⟩
  | cons y ys ih =>
    obtain ⟨prev, hp, hlk⟩ := ih h.2
    exact ⟨prev, List.mem_cons_of_mem _ hp, hlk⟩

/-- A cell of a segment is linked to the cell after it. -/
theorem Seg.linked_after {m : Heap V} {post : List Nat} {a t : Nat} (h : Seg m a post t) :
    linked m a (post.headD t) := by
  cases post with
  | nil => exact h
  | cons c cs => exact h.1

/-- Two stores agree on a cell when they agree on its three fields. -/
theorem getElem?_eq_of_fields {m m2 : Heap V} {a : Nat} (h1 : a < m.length)
    (h2 : a < m2.length) (hv : valOf m2 a = valOf m a) (hl : leftOf m2 a = leftOf m a)
    (hr : rightOf m2 a = rightOf m a) : m2[a]? = m[a]? := by
  unfold valOf at hv
  unfold leftOf at hl
  unfold rightOf at hr
  rw [List.getElem?_eq_getElem h1, List.getElem?_eq_getElem h2] at hv hl hr ⊢
  simp only [Option.some_bind] at hv hl hr
  cases hn2 : m2[a] with
  | mk v2 l2 r2 =>
    cases hn1 : m[a] with
    | mk v1 l1 r1 =>
      rw [hn1, hn2] at hv hl hr
      simp only at hv hl hr
      rw [hv, hl, hr]

theorem Ring.Insert_effect {l : LinkedList V} {h t : Nat} {ns : List Nat} (r : Ring l h ns t)
    (v : Option V) {idx : Int} (hidx : idx ≤ l.length) :
    ∃ l2 prev, Insert l idx v = some (l2, none) ∧ prev ∈ h :: ns.take idx.toNat ∧
      linked l.mem prev ((ns.drop idx.toNat).headD t) ∧
      l2.mem.length = l.mem.length + 1 ∧ l2.head = l.head ∧ l2.tail = l.tail ∧
      l2.length = l.length + 1 ∧
      (∀ x, rightOf l2.mem x =
        if x = prev then some l.mem.length
        else if x = l.mem.length then some ((ns.drop idx.toNat).headD t)
        else rightOf l.mem x) ∧
      (∀ x, leftOf l2.mem x =
        if x = (ns.drop idx.toNat).headD t then some l.mem.length
        else if x = l.mem.length then some prev else leftOf l.mem x) ∧
      (∀ x, valOf l2.mem x = if x = l.mem.length then v else valOf l.mem x) := by
  have r0 := r.alloc { val := v, left := none, right := none }
  have hseg := r.seg
  rw [← List.take_append_drop idx.toNat ns] at hseg
  obtain ⟨prev, hpm, hlk⟩ := hseg.linked_before
  have hcur : (ns.drop idx.toNat).headD t < l.mem.length := leftOf_lt hlk.2
  have hprev : prev < l.mem.length := rightOf_lt hlk.1
  have hl0 : leftOf (l.mem ++ [{ val := v, left := none, right := none }])
      ((ns.drop idx.toNat).headD t) = some prev := by
    rw [leftOf_append, if_neg (by omega)]; exact hlk.2
  have hm0 : (l.mem ++ [({ val := v, left := none, right := none } : doubleNode V)]).length
      = l.mem.length + 1 := by simp
  obtain ⟨m2, hadd, hlen, hright, hleft, hval⟩ :=
    addBefore_effect (show l.mem.length < _ by rw [hm0]; omega)
      (show (ns.drop idx.toNat).headD t < _ by rw [hm0]; omega)
      (show prev < _ by rw [hm0]; omega) hl0 (show l.mem.length ≠ _ by omega)
  refine ⟨{ l with mem := m2, length := l.length + 1 }, prev, ?_, hpm, hlk, by rw [← hm0, ← hlen],
    rfl, rfl, rfl, ?_, ?_, ?_⟩
  · unfold Insert
    rw [if_neg (by omega)]
    simp only [GoDS.alloc]
    rw [r0.getNodeByIndex_eq]
    simp only [Option.some_bind]
    rw [hadd]
    rfl
  · intro x
    simp only
    rw [hright, rightOf_append]
    by_cases h1 : x = prev
    · rw [if_pos h1, if_pos h1]
    · rw [if_neg h1, if_neg h1]
      by_cases h2 : x = l.mem.length
      · rw [if_pos h2, if_pos h2]
      · rw [if_neg h2, if_neg h2, if_neg h2]
  · intro x
    simp only
    rw [hleft, leftOf_append]
    by_cases h1 : x = (ns.drop idx.toNat).headD t
    · rw [if_pos h1, if_pos h1]
    · rw [if_neg h1, if_neg h1]
      by_cases h2 : x = l.mem.length
      · rw [if_pos h2, if_pos h2]
      · rw [if_neg h2, if_neg h2, if_neg h2]
  · intro x
    simp only
    rw [hval, valOf_append]

theorem Ring.Remove_effect {l : LinkedList V} {h t : Nat} {ns : List Nat} (r : Ring l h ns t)
    {idx : Int} (hidx : idx < l.length) (hk : idx.toNat < ns.length) :
    ∃ l2 prev, Remove l idx = some (l2, none) ∧ prev ∈ h :: ns.take idx.toNat ∧
      linked l.mem prev ns[idx.toNat] ∧
      linked l.mem ns[idx.toNat] ((ns.drop (idx.toNat + 1)).headD t) ∧
      l2.mem.length = l.mem.length ∧ l2.head = l.head ∧ l2.tail = l.tail ∧
      l2.length = l.length - 1 ∧
      (∀ x, rightOf l2.mem x =
        if x = prev then some ((ns.drop (idx.toNat + 1)).headD t) else rightOf l.mem x) ∧
      (∀ x, leftOf l2.mem x =
        if x = (ns.drop (idx.toNat + 1)).headD t then some prev else leftOf l.mem x) ∧
      (∀ x, valOf l2.mem x = valOf l.mem x) := by
  have hseg := r.seg
  rw [← List.take_append_drop idx.toNat ns, List.drop_eq_getElem_cons hk] at hseg
  obtain ⟨prev, hpm, hlk⟩ := hseg.linked_before
  rw [List.headD_cons] at hlk
  have hlk2 := hseg.suffix.linked_after
  obtain ⟨m2, hrem, hlen, hright, hleft, hval⟩ :=
    removeNode_effect (rightOf_lt hlk2.1) (rightOf_lt hlk.1) (leftOf_lt hlk2.2) hlk.2 hlk2.1
  refine ⟨{ l with mem := m2, length := l.length - 1 }, prev, ?_, hpm, hlk, hlk2, hlen,
    rfl, rfl, rfl, hright, hleft, hval⟩
  unfold Remove
  rw [if_neg (by omega), r.getNodeByIndex_eq, Ring.headD_drop hk]
  simp only [Option.some_bind]
  rw [hrem]
  rfl

/-! ## Counting the link fields a primitive changes -/

theorem countP_range_single {n x : Nat} {p : Nat → Bool} (hx : x < n)
    (hp : ∀ a, p a = true ↔ a = x) : (List.range n).countP p = 1 := by
  rw [List.countP_eq_length_filter]
  have hnd : ((List.range n).filter p).Nodup := (List.nodup_range n).filter _
  rw [← List.toFinset_card_of_nodup hnd]
  have : ((List.range n).filter p).toFinset = {x} := by
    ext a
    simp only [List.mem_toFinset, List.mem_filter, List.mem_range, hp, Finset.mem_singleton]
    constructor
    · exact fun h => h.2
    · rintro rfl; exact ⟨hx, rfl⟩
  rw [this, Finset.card_singleton]

theorem countP_range_pair {n x y : Nat} {p : Nat → Bool} (hx : x < n) (hy : y < n)
    (hxy : x ≠ y) (hp : ∀ a, p a = true ↔ a = x ∨ a = y) : (List.range n).countP p = 2 := by
  rw [List.countP_eq_length_filter]
  have hnd : ((List.range n).filter p).Nodup := (List.nodup_range n).filter _
  rw [← List.toFinset_card_of_nodup hnd]
  have : ((List.range n).filter p).toFinset = {x, y} := by
    ext a
    simp only [List.mem_toFinset, List.mem_filter, List.mem_range, hp, Finset.mem_insert,
      Finset.mem_singleton]
    constructor
    · exact fun h => h.2
    · rintro (rfl | rfl)
      · exact ⟨hx, Or.inl rfl⟩
      · exact ⟨hy, Or.inr rfl⟩
  rw [this, Finset.card_pair hxy]

/-- The cell at position `k` of a ring differs from every other cell of the ring. -/
theorem Ring.getElem_not_mem {l : LinkedList V} {h t : Nat} {ns : List Nat}
    (r : Ring l h ns t) {k : Nat} (hk : k < ns.length) :
    ns[k] ∉ (h :: ns.take k) ++ (ns.drop (k + 1) ++ [t]) := by
  have hnd := r.nodup
  rw [← List.take_append_drop k ns, List.drop_eq_getElem_cons hk] at hnd
  have e1 : h :: ((ns.take k ++ ns[k] :: ns.drop (k + 1)) ++ [t])
      = (h :: ns.take k) ++ ns[k] :: (ns.drop (k + 1) ++ [t]) := by
    rw [List.cons_append, List.append_assoc, List.cons_append]
  rw [e1, List.perm_middle.nodup_iff, List.nodup_cons] at hnd
  exact hnd.1

/-- The effect of `addBefore` as `Insert` calls it: the new cell before the cell that
`getNodeByIndex` found. -/
theorem Ring.addBefore_frame {l : LinkedList V} {h t : Nat} {ns : List Nat}
    (r : Ring l h ns t) (v : Option V) {idx : Int} (hidx : idx ≤ l.length) :
    ∃ prev m2, leftOf l.mem ((ns.drop idx.toNat).headD t) = some prev ∧
      addBefore (l.mem ++ [{ val := v, left := none, right := none }]) (some l.mem.length)
        (some ((ns.drop idx.toNat).headD t)) = some m2 ∧
      changedLinks (l.mem ++ [{ val := v, left := none, right := none }]) m2 = 4 ∧
      (∀ x, leftOf m2 x ≠ leftOf (l.mem ++ [{ val := v, left := none, right := none }]) x ↔
        x = l.mem.length ∨ x = (ns.drop idx.toNat).headD t) ∧
      (∀ x, rightOf m2 x ≠ rightOf (l.mem ++ [{ val := v, left := none, right := none }]) x ↔
        x = l.mem.length ∨ x = prev) ∧
      (∀ x, valOf m2 x = valOf (l.mem ++ [{ val := v, left := none, right := none }]) x) ∧
      m2.length = (l.mem ++ [({ val := v, left := none, right := none } : doubleNode V)]).length ∧
      WellFormed { l with mem := m2, length := l.length + 1 } := by
  have r0 := r.alloc { val := v, left := none, right := none }
  have hseg := r.seg
  rw [← List.take_append_drop idx.toNat ns] at hseg
  obtain ⟨prev, hpm, hlk⟩ := hseg.linked_before
  have hcur : (ns.drop idx.toNat).headD t < l.mem.length := leftOf_lt hlk.2
  have hprev : prev < l.mem.length := rightOf_lt hlk.1
  have hl0 : leftOf (l.mem ++ [{ val := v, left := none, right := none }])
      ((ns.drop idx.toNat).headD t) = some prev := by
    rw [leftOf_append, if_neg (by omega)]; exact hlk.2
  have hr0 : rightOf (l.mem ++ [{ val := v, left := none, right := none }]) prev
      = some ((ns.drop idx.toNat).headD t) := by
    rw [rightOf_append, if_neg (by omega)]; exact hlk.1
  have hln : leftOf (l.mem ++ [({ val := v, left := none, right := none } : doubleNode V)])
      l.mem.length = none := by
    rw [leftOf_append, if_pos rfl]
  have hrn : rightOf (l.mem ++ [({ val := v, left := none, right := none } : doubleNode V)])
      l.mem.length = none := by
    rw [rightOf_append, if_pos rfl]
  have hm0 : (l.mem ++ [({ val := v, left := none, right := none } : doubleNode V)]).length
      = l.mem.length + 1 := by simp
  have hnc : l.mem.length ≠ (ns.drop idx.toNat).headD t := by omega
  have hnp : l.mem.length ≠ prev := by omega
  obtain ⟨m2, hadd, hlen, hright, hleft, hval⟩ :=
    addBefore_effect (show l.mem.length < _ by rw [hm0]; omega)
      (show (ns.drop idx.toNat).headD t < _ by rw [hm0]; omega)
      (show prev < _ by rw [hm0]; omega) hl0 hnc
  have hL : ∀ x, leftOf m2 x ≠ leftOf (l.mem ++ [{ val := v, left := none, right := none }]) x ↔
      x = l.mem.length ∨ x = (ns.drop idx.toNat).headD t := by
    intro x
    rw [hleft]
    by_cases h1 : x = (ns.drop idx.toNat).headD t
    · rw [if_pos h1, h1, hl0]
      simp only [ne_eq, Option.some.injEq, or_true, iff_true]
      exact hnp
    · rw [if_neg h1]
      by_cases h2 : x = l.mem.length
      · rw [if_pos h2, h2, hln]
        simp
      · rw [if_neg h2]
        exact ⟨fun hc => absurd rfl hc, fun hc => hc.elim (fun e => absurd e h2)
          (fun e => absurd e h1)⟩
  have hR : ∀ x, rightOf m2 x ≠ rightOf (l.mem ++ [{ val := v, left := none, right := none }]) x ↔
      x = l.mem.length ∨ x = prev := by
    intro x
    rw [hright]
    by_cases h1 : x = prev
    · rw [if_pos h1, h1, hr0]
      simp only [ne_eq, Option.some.injEq, or_true, iff_true]
      exact hnc
    · rw [if_neg h1]
      by_cases h2 : x = l.mem.length
      · rw [if_pos h2, h2, hrn]
        simp
      · rw [if_neg h2]
        exact ⟨fun hc => absurd rfl hc, fun hc => hc.elim (fun e => absurd e h2)
          (fun e => absurd e h1)⟩
  have hins : Insert l idx v = some ({ l with mem := m2, length := l.length + 1 }, none) := by
    unfold Insert
    rw [if_neg (by omega)]
    simp only [GoDS.alloc]
    rw [r0.getNodeByIndex_eq]
    simp only [Option.some_bind]
    rw [hadd]
    rfl
  obtain ⟨l2, hins2, r2, -⟩ := r.Insert_eq v hidx
  have e1 : l2 = { l with mem := m2, length := l.length + 1 } := by
    rw [hins] at hins2
    simp only [Option.some.injEq, Prod.mk.injEq, and_true] at hins2
    exact hins2.symm
  rw [e1] at r2
  refine ⟨prev, m2, hlk.2, hadd, ?_, hL, hR, hval, hlen, r2.wellFormed⟩
  unfold changedLinks
  rw [countP_range_pair (show l.mem.length < _ by rw [hm0]; omega)
      (show (ns.drop idx.toNat).headD t < _ by rw [hm0]; omega) hnc
      (fun a => by rw [decide_eq_true_iff]; exact hL a),
    countP_range_pair (show l.mem.length < _ by rw [hm0]; omega)
      (show prev < _ by rw [hm0]; omega) hnp
      (fun a => by rw [decide_eq_true_iff]; exact hR a)]

/-- The effect of `removeNode` as `Remove` calls it: on the cell at position `idx`. -/
theorem Ring.removeNode_frame {l : LinkedList V} {h t : Nat} {ns : List Nat}
    (r : Ring l h ns t) {idx : Int} (hidx : idx < l.length) (hk : idx.toNat < ns.length) :
    ∃ prev next m2, leftOf l.mem ns[idx.toNat] = some prev ∧
      rightOf l.mem ns[idx.toNat] = some next ∧
      removeNode l.mem (some ns[idx.toNat]) = some m2 ∧
      changedLinks l.mem m2 = 2 ∧
      (∀ x, leftOf m2 x ≠ leftOf l.mem x ↔ x = next) ∧
      (∀ x, rightOf m2 x ≠ rightOf l.mem x ↔ x = prev) ∧
      (∀ x, valOf m2 x = valOf l.mem x) ∧ m2.length = l.mem.length ∧
      WellFormed { l with mem := m2, length := l.length - 1 } := by
  have hseg := r.seg
  rw [← List.take_append_drop idx.toNat ns, List.drop_eq_getElem_cons hk] at hseg
  obtain ⟨prev, hpm, hlk⟩ := hseg.linked_before
  rw [List.headD_cons] at hlk
  have hlk2 := hseg.suffix.linked_after
  have hnm := r.getElem_not_mem hk
  have hpn : prev ≠ ns[idx.toNat] := by
    rintro hc
    exact hnm (List.mem_append_left _ (hc ▸ hpm))
  have hnn : (ns.drop (idx.toNat + 1)).headD t ≠ ns[idx.toNat] := by
    intro hc
    exact hnm (List.mem_append_right _ (hc ▸ Seg.headD_mem _ _))
  obtain ⟨m2, hrem, hlen, hright, hleft, hval⟩ :=
    removeNode_effect (rightOf_lt hlk2.1) (rightOf_lt hlk.1) (leftOf_lt hlk2.2) hlk.2 hlk2.1
  have hL : ∀ x, leftOf m2 x ≠ leftOf l.mem x ↔ x = (ns.drop (idx.toNat + 1)).headD t := by
    intro x
    rw [hleft]
    by_cases h1 : x = (ns.drop (idx.toNat + 1)).headD t
    · rw [if_pos h1, h1, hlk2.2]
      simp only [ne_eq, Option.some.injEq, iff_true]
      exact hpn
    · rw [if_neg h1]
      exact ⟨fun hc => absurd rfl hc, fun hc => absurd hc h1⟩
  have hR : ∀ x, rightOf m2 x ≠ rightOf l.mem x ↔ x = prev := by
    intro x
    rw [hright]
    by_cases h1 : x = prev
    · rw [if_pos h1, h1, hlk.1]
      simp only [ne_eq, Option.some.injEq, iff_true]
      exact hnn
    · rw [if_neg h1]
      exact ⟨fun hc => absurd rfl hc, fun hc => absurd hc h1⟩
  have hR2 : Remove l idx = some ({ l with mem := m2, length := l.length - 1 }, none) := by
    unfold Remove
    rw [if_neg (by omega), r.getNodeByIndex_eq, Ring.headD_drop hk]
    simp only [Option.some_bind]
    rw [hrem]
    rfl
  obtain ⟨l2, hrem2, r2, -⟩ := r.Remove_eq hidx hk
  have e1 : l2 = { l with mem := m2, length := l.length - 1 } := by
    rw [hR2] at hrem2
    simp only [Option.some.injEq, Prod.mk.injEq, and_true] at hrem2
    exact hrem2.symm
  rw [e1] at r2
  refine ⟨prev, _, m2, hlk.2, hlk2.1, hrem, ?_, hL, hR, hval, hlen, r2.wellFormed⟩
  unfold changedLinks
  rw [countP_range_single (leftOf_lt hlk2.2) (fun a => by rw [decide_eq_true_iff]; exact hL a),
    countP_range_single (rightOf_lt hlk.1) (fun a => by rw [decide_eq_true_iff]; exact hR a)]

/-! ## Reachable lists with the same contents behave alike -/

theorem Op.call_fst [GoEq V] (op : Op V) (l : LinkedList V) :
    (op.call l).map Prod.fst = op.run l := by
  cases op <;> simp [Op.call, Op.run, Option.map_map, Function.comp_def]

/-- On a ring a negative index reads and splices as index 0 does. -/
theorem Ring.getNodeByIndex_neg {l : LinkedList V} {h t : Nat} {ns : List Nat}
    (_r : Ring l h ns t) {idx : Int} (hneg : idx < 0) (m : Heap V) :
    getNodeByIndex { l with mem := m } idx = getNodeByIndex { l with mem := m } 0 := by
  have htn : idx.toNat = 0 := by omega
  simp only [getNodeByIndex, htn, Int.toNat_zero]

theorem Ring.call_insert_neg [GoEq V] {l : LinkedList V} {h t : Nat} {ns : List Nat}
    (r : Ring l h ns t) {idx : Int} (hneg : idx < 0) (v : Option V) :
    (Op.insert idx v).call l = (Op.insert 0 v).call l := by
  have hlen := r.len
  have e : Insert l idx v = Insert l 0 v := by
    unfold Insert
    rw [if_neg (by omega), if_neg (by omega)]
    simp only [alloc, r.getNodeByIndex_neg hneg]
  simp only [Op.call, e]

theorem Ring.call_get_neg [GoEq V] {l : LinkedList V} {h t : Nat} {ns : List Nat}
    (r : Ring l h ns t) {idx : Int} (hneg : idx < 0) (hne : ns ≠ []) :
    (Op.get idx : Op V).call l = (Op.get 0 : Op V).call l := by
  have hlen := r.len
  have hpos : 0 < ns.length := List.length_pos.mpr hne
  have e : Get l idx = Get l 0 := by
    unfold Get
    rw [if_neg (by omega), if_neg (by omega)]
    have := r.getNodeByIndex_neg hneg l.mem
    simp only at this
    rw [this]
  simp only [Op.call, e]

theorem Ring.call_remove_neg [GoEq V] {l : LinkedList V} {h t : Nat} {ns : List Nat}
    (r : Ring l h ns t) {idx : Int} (hneg : idx < 0) (hne : ns ≠ []) :
    (Op.remove idx : Op V).call l = (Op.remove 0 : Op V).call l := by
  have hlen := r.len
  have hpos : 0 < ns.length := List.length_pos.mpr hne
  have e : Remove l idx = Remove l 0 := by
    unfold Remove
    rw [if_neg (by omega), if_neg (by omega)]
    have := r.getNodeByIndex_neg hneg l.mem
    simp only at this
    rw [this]
  simp only [Op.call, e]

/-- One call on two reachable lists with the same contents: both panic, or both return
the same value and leave reachable lists with the same contents. -/
theorem Reachable.call_sim [GoEq V] {la lb : LinkedList V} (ha : Reachable la)
    (hb : Reachable lb) (hs : ToSlice la = ToSlice lb) (op : Op V) :
    (op.call la = none ∧ op.call lb = none) ∨
    ∃ la2 lb2 o, op.call la = some (la2, o) ∧ op.call lb = some (lb2, o) ∧
      Reachable la2 ∧ Reachable lb2 ∧ ToSlice la2 = ToSlice lb2 := by
  obtain ⟨h1, ns1, t1, r1, hnil1, hv1⟩ := ha.ring_tail_clean
  obtain ⟨h2, ns2, t2, r2, hnil2, hv2⟩ := hb.ring_tail_clean
  have hseq : ns1.map (valOf la.mem) = ns2.map (valOf lb.mem) := by
    rw [r1.ToSlice_eq, r2.ToSlice_eq] at hs
    exact Option.some.inj hs
  have hlen12 : ns1.length = ns2.length := by
    have := congrArg List.length hseq
    simpa using this
  have nn : ∀ op2 : Op V, op2.nonneg = true →
      (op2.call la = none ∧ op2.call lb = none) ∨
      ∃ la2 lb2 o, op2.call la = some (la2, o) ∧ op2.call lb = some (lb2, o) ∧
        Reachable la2 ∧ Reachable lb2 ∧ ToSlice la2 = ToSlice lb2 := by
    intro op2 hop
    have hA := r1.call_onSeq op2 hop
    have hB := r2.call_onSeq op2 hop
    rw [← hseq] at hB
    cases hX : op2.onSeq (ns1.map (valOf la.mem)) with
    | none => exact Or.inl ⟨hA.1 hX, hB.1 hX⟩
    | some X =>
      obtain ⟨la2, nsa, hca, ra, hsa⟩ := hA.2 X.1 X.2 hX
      obtain ⟨lb2, nsb, hcb, rb, hsb⟩ := hB.2 X.1 X.2 hX
      refine Or.inr ⟨la2, lb2, X.2, hca, hcb, ?_, ?_, ?_⟩
      · exact Reachable.step op2 ha (by rw [← Op.call_fst, hca]; rfl)
      · exact Reachable.step op2 hb (by rw [← Op.call_fst, hcb]; rfl)
      · rw [ra.ToSlice_eq, rb.ToSlice_eq, hsa, hsb]
  by_cases hop : op.nonneg = true
  · exact nn op hop
  · cases op with
    | insert idx v =>
      have hneg : idx < 0 := by simpa [Op.nonneg] using hop
      rw [r1.call_insert_neg hneg, r2.call_insert_neg hneg]
      exact nn (.insert 0 v) rfl
    | get idx =>
      have hneg : idx < 0 := by simpa [Op.nonneg] using hop
      by_cases hne : ns1 = []
      · have hne2 : ns2 = [] := List.length_eq_zero.mp (by rw [← hlen12, hne]; rfl)
        subst hne
        subst hne2
        have hl1 := r1.len
        have hl2 := r2.len
        have g1 : Get la idx = some (none, none) := by
          rw [Get, if_neg (by rw [hl1]; simp; omega), r1.getNodeByIndex_eq]
          simp only [List.drop_nil, List.headD_nil, Option.some_bind]
          rw [load_some r1.lt_tail, Option.map_some', hv1]
        have g2 : Get lb idx = some (none, none) := by
          rw [Get, if_neg (by rw [hl2]; simp; omega), r2.getNodeByIndex_eq]
          simp only [List.drop_nil, List.headD_nil, Option.some_bind]
          rw [load_some r2.lt_tail, Option.map_some', hv2]
        exact Or.inr ⟨la, lb, .valueError none none,
          by simp only [Op.call, g1, Option.map_some'],
          by simp only [Op.call, g2, Option.map_some'], ha, hb, hs⟩
      · have hne2 : ns2 ≠ [] := by
          intro hc
          exact hne (List.length_eq_zero.mp (by rw [hlen12, hc]; rfl))
        rw [r1.call_get_neg hneg hne, r2.call_get_neg hneg hne2]
        exact nn (.get 0) rfl
    | remove idx =>
      have hneg : idx < 0 := by simpa [Op.nonneg] using hop
      by_cases hne : ns1 = []
      · have hne2 : ns2 = [] := List.length_eq_zero.mp (by rw [← hlen12, hne]; rfl)
        subst hne
        subst hne2
        have hl1 := r1.len
        have hl2 := r2.len
        have p1 : Remove la idx = none :=
          r1.Remove_panic hnil1 (by rw [hl1]; simp; omega) (by simp)
        have p2 : Remove lb idx = none :=
          r2.Remove_panic hnil2 (by rw [hl2]; simp; omega) (by simp)
        exact Or.inl ⟨by simp only [Op.call, p1, Option.map_none'],
          by simp only [Op.call, p2, Option.map_none']⟩
      · have hne2 : ns2 ≠ [] := by
          intro hc
          exact hne (List.length_eq_zero.mp (by rw [hlen12, hc]; rfl))
        rw [r1.call_remove_neg hneg hne, r2.call_remove_neg hneg hne2]
        exact nn (.remove 0) rfl
    | append v => exact absurd rfl hop
    | index v => exact absurd rfl hop
    | front => exact absurd rfl hop
    | back => exact absurd rfl hop
    | empty => exact absurd rfl hop
    | length => exact absurd rfl hop
    | clear => exact absurd rfl hop
    | toSlice => exact absurd rfl hop

/-- Reachable lists with the same contents cannot be told apart by any sequence of
public calls. -/
theorem Reachable.observe_same [GoEq V] (ops : List (Op V)) :
    ∀ {la lb : LinkedList V}, Reachable la → Reachable lb → ToSlice la = ToSlice lb →
      observe ops la = observe ops lb := by
  induction ops with
  | nil => intros; rfl
  | cons op ops ih =>
    intro la lb ha hb hs
    rcases ha.call_sim hb hs op with ⟨h1, h2⟩ | ⟨la2, lb2, o, h1, h2, ha2, hb2, hs2⟩
    · simp only [observe, h1, h2]
    · simp only [observe, h1, h2]
      rw [ih ha2 hb2 hs2]

/-! ## The claims -/

/-- C1: every list reachable from `NewLinkedList()` by public operations, with
arbitrary arguments, satisfies ring closure, length consistency and symmetry. -/
theorem C1_reachable_invariants [GoEq V] (l : LinkedList V) (hr : Reachable l) :
    ringClosure l ∧ lengthConsistent l ∧ symmetry l := by
  obtain ⟨h, ns, t, r, -⟩ := hr.ring_tail_nil
  exact r.wellFormed.2

/-- C1 at the list `[1, 2, 3]` built by three `Append` calls. -/
theorem C1_reachable_invariants_witness :
    ringClosure list123 ∧ lengthConsistent list123 ∧ symmetry list123 :=
  C1_reachable_invariants list123
    (Reachable.step (.append (some 3))
      (Reachable.step (.append (some 2))
        (Reachable.step (.append (some 1)) Reachable.new rfl) rfl) rfl)

/-- C2: on a well-formed list with `ToSlice() = s`, `Insert(idx, v)` with
`0 <= idx <= Length()` returns a nil error, leaves a well-formed list whose length is
one greater, where `Get(idx)` returns `v` and `ToSlice()` is `s[0:idx]`, `v`, `s[idx:]`;
and the scenario `Insert(0,"a")`, `Append("b")`, `Insert(1,"x")` on a new list gives
`["a","x","b"]` with length 3. -/
theorem C2_insert_spec :
    (∀ (V : Type) (l : LinkedList V) (s : List (Option V)) (v : Option V) (idx : Int),
      WellFormed l → ToSlice l = some s → 0 ≤ idx → idx ≤ Length l →
      ∃ l2, Insert l idx v = some (l2, none) ∧ WellFormed l2 ∧ Length l2 = Length l + 1 ∧
        Get l2 idx = some (v, none) ∧
        ToSlice l2 = some (s.take idx.toNat ++ v :: s.drop idx.toNat)) ∧
    (∃ l1 l2 l3, Insert (NewLinkedList : LinkedList String) 0 (some "a") = some (l1, none) ∧
      Append l1 (some "b") = some l2 ∧ Insert l2 1 (some "x") = some (l3, none) ∧
      ToSlice l3 = some [some "a", some "x", some "b"] ∧ Length l3 = 3) := by
  refine ⟨?_, ⟨_, _, _, rfl, rfl, rfl, rfl, rfl⟩⟩
  intro V l s v idx w hs h0 hidx
  obtain ⟨h, ns, t, r⟩ := w.toRing
  have hs2 := r.toSlice_inj hs
  obtain ⟨l2, hins, r2, -, hval, hnew, -, hlen⟩ := r.Insert_eq v hidx
  have hk : idx.toNat ≤ ns.length := by
    have := r.len; unfold Length at hidx; omega
  have hslice : (ns.take idx.toNat ++ l.mem.length :: ns.drop idx.toNat).map (valOf l2.mem)
      = s.take idx.toNat ++ v :: s.drop idx.toNat := by
    rw [List.map_append, List.map_cons, hnew, hs2, ← List.map_take, ← List.map_drop,
      map_valOf_congr (fun x hx => r.lt_of_mem (List.mem_of_mem_take hx)) hval,
      map_valOf_congr (fun x hx => r.lt_of_mem (List.mem_of_mem_drop hx)) hval]
  refine ⟨l2, hins, r2.wellFormed, hlen, ?_, ?_⟩
  · rw [r2.Get_eq (by rw [hlen]; unfold Length at hidx; omega)
      (by simp only [List.length_append, List.length_cons, List.length_take,
            List.length_drop]; omega), hslice]
    have hlt : (s.take idx.toNat).length = idx.toNat := by
      rw [List.length_take, hs2, List.length_map]; omega
    rw [List.getElem?_append_right (by omega), hlt]
    simp
  · rw [r2.ToSlice_eq, hslice]

/-- C2 at the list `[1, 2, 3]`: `Insert(1, 9)`. -/
theorem C2_insert_spec_witness :
    ∃ l2, Insert list123 1 (some 9) = some (l2, none) ∧ WellFormed l2 ∧
      Length l2 = Length list123 + 1 ∧ Get l2 1 = some (some 9, none) ∧
      ToSlice l2 = some ([some 1, some 2, some 3].take (1 : Int).toNat ++
        some 9 :: [some 1, some 2, some 3].drop (1 : Int).toNat) :=
  C2_insert_spec.1 Nat list123 [some 1, some 2, some 3] (some 9) 1 (by decide) (by decide)
    (by decide) (by decide)

/-- C3: on a well-formed list with `ToSlice() = s`, `Remove(idx)` with
`0 <= idx < Length()` returns a nil error and leaves a well-formed list whose length
is one smaller and whose `ToSlice()` is `s[0:idx]` followed by `s[idx+1:]`; and on
the list `[1,2,3]`, `Remove(1)` gives `[1,3]`. -/
theorem C3_remove_spec :
    (∀ (V : Type) (l : LinkedList V) (s : List (Option V)) (idx : Int),
      WellFormed l → ToSlice l = some s → 0 ≤ idx → idx < Length l →
      ∃ l2, Remove l idx = some (l2, none) ∧ WellFormed l2 ∧ Length l2 = Length l - 1 ∧
        ToSlice l2 = some (s.take idx.toNat ++ s.drop (idx.toNat + 1))) ∧
    (∃ l l2, appendAll (NewLinkedList : LinkedList Nat) [some 1, some 2, some 3] = some l ∧
      Remove l 1 = some (l2, none) ∧ ToSlice l2 = some [some 1, some 3]) := by
  refine ⟨?_, ⟨_, _, rfl, rfl, rfl⟩⟩
  intro V l s idx w hs h0 hidx
  obtain ⟨h, ns, t, r⟩ := w.toRing
  have hs2 := r.toSlice_inj hs
  have hk : idx.toNat < ns.length := by
    have := r.len; unfold Length at hidx; omega
  obtain ⟨l2, hrem, r2, -, hval, -, hlen⟩ := r.Remove_eq hidx hk
  refine ⟨l2, hrem, r2.wellFormed, hlen, ?_⟩
  rw [r2.ToSlice_eq, List.map_append, hs2, ← List.map_take, ← List.map_drop]
  congr 2 <;> exact List.map_congr_left fun x _ => hval x

/-- C3 at the list `[1, 2, 3]`: `Remove(0)`. -/
theorem C3_remove_spec_witness :
    ∃ l2, Remove list123 0 = some (l2, none) ∧ WellFormed l2 ∧
      Length l2 = Length list123 - 1 ∧
      ToSlice l2 = some ([some 1, some 2, some 3].take (0 : Int).toNat ++
        [some 1, some 2, some 3].drop ((0 : Int).toNat + 1)) :=
  C3_remove_spec.1 Nat list123 [some 1, some 2, some 3] 0 (by decide) (by decide)
    (by decide) (by decide)

/-- C4: `Append(v1)`, ..., `Append(vn)` on a new list all succeed and leave
`ToSlice() = [v1, ..., vn]` and `Length() = n`; and on any well-formed list with
`ToSlice() = s`, `Append(v)` succeeds and leaves a well-formed list with
`ToSlice() = s ++ [v]` and the length one greater. -/
theorem C4_append_spec :
    (∀ (V : Type) (vs : List (Option V)),
      ∃ l, appendAll (NewLinkedList : LinkedList V) vs = some l ∧
        ToSlice l = some vs ∧ Length l = vs.length) ∧
    (∀ (V : Type) (l : LinkedList V) (s : List (Option V)) (v : Option V),
      WellFormed l → ToSlice l = some s →
      ∃ l2, Append l v = some l2 ∧ WellFormed l2 ∧ ToSlice l2 = some (s ++ [v]) ∧
        Length l2 = Length l + 1) := by
  constructor
  · intro V vs
    obtain ⟨l2, ns2, hall, r2, hmap, hlen⟩ := (Ring.newLinkedList (V := V)).appendAll_eq vs
    refine ⟨l2, hall, ?_, ?_⟩
    · rw [r2.ToSlice_eq, hmap]; simp
    · rw [Length, hlen]; simp [NewLinkedList]
  · intro V l s v w hs
    obtain ⟨h, ns, t, r⟩ := w.toRing
    have hs2 := r.toSlice_inj hs
    obtain ⟨l2, happ, r2, -, hval, hnew, -, hlen⟩ := r.Append_eq v
    refine ⟨l2, happ, r2.wellFormed, ?_, hlen⟩
    rw [r2.ToSlice_eq, List.map_append, List.map_singleton, hnew, hs2,
      map_valOf_congr (fun x hx => r.lt_of_mem hx) hval]

/-- C4 at the list `[1, 2, 3]`: `Append(4)`. -/
theorem C4_append_spec_witness :
    ∃ l2, Append list123 (some 4) = some l2 ∧ WellFormed l2 ∧
      ToSlice l2 = some ([some 1, some 2, some 3] ++ [some 4]) ∧
      Length l2 = Length list123 + 1 :=
  C4_append_spec.2 Nat list123 [some 1, some 2, some 3] (some 4) (by decide) (by decide)

/-- C5: on a well-formed list, for `0 <= idx < Length()`, `Get(idx)` returns a nil
error and the value `ToSlice()[idx]`. -/
theorem C5_get_matches_toSlice (l : LinkedList V) (idx : Int) (w : WellFormed l)
    (h0 : 0 ≤ idx) (hidx : idx < Length l) :
    ∃ s x, ToSlice l = some s ∧ s[idx.toNat]? = some x ∧ Get l idx = some (x, none) := by
  obtain ⟨h, ns, t, r⟩ := w.toRing
  have hk : idx.toNat < ns.length := by
    have := r.len; unfold Length at hidx; omega
  refine ⟨_, valOf l.mem ns[idx.toNat], r.ToSlice_eq, ?_, ?_⟩
  · simp [List.getElem?_eq_getElem hk]
  · rw [r.Get_eq hidx hk]
    simp [List.getElem?_eq_getElem hk]

/-- C5 at the list `[1, 2, 3]`: `Get(2)`. -/
theorem C5_get_matches_toSlice_witness :
    ∃ s x, ToSlice list123 = some s ∧ s[(2 : Int).toNat]? = some x ∧
      Get list123 2 = some (x, none) :=
  C5_get_matches_toSlice list123 2 (by decide) (by decide) (by decide)

/-- C6 (the code departs from the claim): `Insert(-1, v)` on a new list returns a nil
error although `-1` lies outside `[0, Length()]`, and the value is inserted. -/
theorem C6_insert_negative_accepted :
    ¬ (0 ≤ (-1 : Int) ∧ (-1 : Int) ≤ Length (NewLinkedList : LinkedList Nat)) ∧
    ∃ l2, Insert (NewLinkedList : LinkedList Nat) (-1) (some 7) = some (l2, none) ∧
      ToSlice l2 = some [some 7] ∧ Length l2 = 1 :=
  ⟨by decide, _, rfl, rfl, rfl⟩

/-- C7: for every list and every `idx >= Length()`, `Get(idx)` returns a nil value
and a non-nil error, and `Remove(idx)` returns a non-nil error. -/
theorem C7_get_remove_out_of_range (l : LinkedList V) (idx : Int) (hidx : Length l ≤ idx) :
    (∃ e, Get l idx = some (none, some e)) ∧ (∃ l2 e, Remove l idx = some (l2, some e)) := by
  unfold Length at hidx
  exact ⟨⟨_, by rw [Get, if_pos hidx]⟩, ⟨_, _, by rw [Remove, if_pos hidx]⟩⟩

/-- C7 on the empty list: `Get(0)` and `Remove(0)` fail. -/
theorem C7_get_remove_out_of_range_witness :
    (∃ e, Get (NewLinkedList : LinkedList Nat) 0 = some (none, some e)) ∧
    (∃ l2 e, Remove (NewLinkedList : LinkedList Nat) 0 = some (l2, some e)) :=
  C7_get_remove_out_of_range NewLinkedList 0 (by decide)

/-- C8 (the code departs from the claim): on a new list, with the invalid index `-1`,
`Remove` panics on a nil dereference, `Get` returns no error, and `Insert` returns no
error and changes the list. -/
theorem C8_negative_index_not_rejected :
    Reachable (NewLinkedList : LinkedList Nat) ∧
    ¬ (0 ≤ (-1 : Int) ∧ (-1 : Int) < Length (NewLinkedList : LinkedList Nat)) ∧
    Remove (NewLinkedList : LinkedList Nat) (-1) = none ∧
    Get (NewLinkedList : LinkedList Nat) (-1) = some (none, none) ∧
    ∃ l2, Insert (NewLinkedList : LinkedList Nat) (-1) (some 7) = some (l2, none) ∧
      l2 ≠ NewLinkedList :=
  ⟨Reachable.new, by decide, rfl, rfl, _, rfl, by decide⟩

/-- C9: when `Get(idx)`, `Insert(idx, v)` or `Remove(idx)` returns a non-nil error,
the list after the call is the list before it, so `Length()` and `ToSlice()` are
unchanged. -/
theorem C9_error_leaves_list_unchanged [GoEq V] (l l2 : LinkedList V) (idx : Int)
    (v : Option V) (e : GoError) :
    (Insert l idx v = some (l2, some e) →
      l2 = l ∧ Length l2 = Length l ∧ ToSlice l2 = ToSlice l) ∧
    (Remove l idx = some (l2, some e) →
      l2 = l ∧ Length l2 = Length l ∧ ToSlice l2 = ToSlice l) ∧
    (∀ x, Get l idx = some (x, some e) → (Op.get idx).run l = some l2 →
      l2 = l ∧ Length l2 = Length l ∧ ToSlice l2 = ToSlice l) := by
  refine ⟨?_, ?_, ?_⟩
  · intro hins
    have : l2 = l := by
      unfold Insert at hins
      split at hins
      · simp only [Option.some.injEq, Prod.mk.injEq] at hins
        exact hins.1.symm
      · simp only [alloc, Option.bind_eq_some, Option.map_eq_some', Prod.mk.injEq,
          reduceCtorEq, and_false, exists_false] at hins
    subst this
    exact ⟨rfl, rfl, rfl⟩
  · intro hrem
    have : l2 = l := by
      unfold Remove at hrem
      split at hrem
      · simp only [Option.some.injEq, Prod.mk.injEq] at hrem
        exact hrem.1.symm
      · simp only [Option.bind_eq_some, Option.map_eq_some', Prod.mk.injEq,
          reduceCtorEq, and_false, exists_false] at hrem
    subst this
    exact ⟨rfl, rfl, rfl⟩
  · intro x hget hrun
    have : l2 = l := by
      simp only [Op.run, hget, Option.map_some', Option.some.injEq] at hrun
      exact hrun.symm
    subst this
    exact ⟨rfl, rfl, rfl⟩

/-- C9 at the list `[1, 2, 3]`: `Remove(5)` fails and `Length()` stays 3. -/
theorem C9_error_leaves_list_unchanged_witness :
    Remove list123 5 = some (list123, some (outOfRangeError list123 5)) ∧
    Length list123 = 3 ∧
    (list123 = list123 ∧ Length list123 = Length list123 ∧
      ToSlice list123 = ToSlice list123) :=
  ⟨rfl, rfl,
    (C9_error_leaves_list_unchanged list123 list123 5 none (outOfRangeError list123 5)).2.1 rfl⟩

/-- When `==` between every element of the list and `v` does not panic and is equality,
`Index(v)` on a well-formed list returns `-1` exactly when no position in
`[0, Length())` holds `v`, and otherwise the smallest position `r` such that `Get(r)`
is `v`. -/
theorem Index_spec_of_lawful [GoEq V] [DecidableEq V] (l : LinkedList V) (v : Option V)
    (w : WellFormed l)
    (hlaw : ∀ s, ToSlice l = some s → ∀ x ∈ s, ifaceEq x v = some (decide (x = v))) :
    ∃ r, Index l v = some r ∧
      (r = -1 ↔ ∀ i, 0 ≤ i → i < Length l → Get l i ≠ some (v, none)) ∧
      (r ≠ -1 → 0 ≤ r ∧ r < Length l ∧ Get l r = some (v, none) ∧
        ∀ j, 0 ≤ j → j < r → Get l j ≠ some (v, none)) := by
  obtain ⟨h, ns, t, r⟩ := w.toRing
  have hlaw2 : ∀ x ∈ ns, ifaceEq (valOf l.mem x) v = some (decide (valOf l.mem x = v)) :=
    fun x hx => hlaw _ r.ToSlice_eq _ (List.mem_map_of_mem _ hx)
  obtain ⟨res, hres, hcase⟩ := IndexLoop_seg r.seg v 0 hlaw2
  rw [← r.Index_eq] at hres
  refine ⟨res, hres, ?_⟩
  unfold Length
  rcases hcase with ⟨h1, h2⟩ | ⟨j, hj, hrj, hget, hmin⟩
  · refine ⟨⟨fun _ i h0 hi hc => ?_, fun _ => h1⟩, fun hc => absurd h1 hc⟩
    have := List.getElem?_mem ((r.Get_eq_iff h0 hi v).mp hc)
    obtain ⟨x, hx, hxv⟩ := List.mem_map.mp this
    exact h2 x hx hxv
  · have hlen := r.len
    have hr0 : 0 ≤ res := by omega
    have hrl : res < l.length := by omega
    have hjt : res.toNat = j := by omega
    have hgr : Get l res = some (v, none) := by
      rw [r.Get_eq_iff hr0 hrl, hjt]; exact hget
    refine ⟨⟨fun hc => by omega, fun hall => absurd hgr (hall res hr0 hrl)⟩, fun _ => ?_⟩
    refine ⟨hr0, hrl, hgr, fun i h0 hi hc => ?_⟩
    exact hmin i.toNat (by omega) ((r.Get_eq_iff h0 (by omega) v).mp hc)

/-- C10 (counterexample to the claim as stated): after `Append([]int{1})` on a new list,
`Get(0)` returns that value, yet `Index([]int{1})` returns neither `0` nor `-1`: it
panics on the comparison of two `[]int` values; after `Append(NaN)` on a new list,
`Get(0)` returns `NaN`, yet `Index(NaN)` returns `-1`. -/
theorem C10_index_uncomparable_panics :
    (∃ l, Append (NewLinkedList : LinkedList GoVal) (some (.slice [1])) = some l ∧
      WellFormed l ∧ Get l 0 = some (some (.slice [1]), none) ∧
      Index l (some (.slice [1])) = none) ∧
    (∃ l, Append (NewLinkedList : LinkedList GoVal) (some .nan) = some l ∧
      WellFormed l ∧ Get l 0 = some (some .nan, none) ∧
      Index l (some .nan) = some (-1)) :=
  ⟨⟨_, rfl, by decide, rfl, rfl⟩, ⟨_, rfl, by decide, rfl, rfl⟩⟩

/-- C10 (amended): on a well-formed list on which no comparison `x == v` of an element
with `v` panics, `Index(v)` returns; it returns `-1` exactly when `x == v` is false for
the element `x` at every position in `[0, Length())`, and otherwise the smallest
position `r` whose element (the value `Get(r)` returns) satisfies `x == v`.  When `==`
between the elements and `v` is moreover equality, this is: `-1` exactly when no position
holds `v`, and otherwise the smallest position `r` such that `Get(r)` is `v`.  The
sentinels are not matched: `Index(nil)` on a new list is `-1`. -/
theorem C10_index_spec :
    (∀ (V : Type) [GoEq V] (l : LinkedList V) (v : Option V), WellFormed l →
      (∀ s, ToSlice l = some s → ∀ x ∈ s, (ifaceEq x v).isSome = true) →
      ∃ r, Index l v = some r ∧
        (r = -1 ↔ ∀ i x, 0 ≤ i → i < Length l → Get l i = some (x, none) →
          ifaceEq x v = some false) ∧
        (r ≠ -1 → 0 ≤ r ∧ r < Length l ∧
          (∃ x, Get l r = some (x, none) ∧ ifaceEq x v = some true) ∧
          ∀ j y, 0 ≤ j → j < r → Get l j = some (y, none) → ifaceEq y v = some false)) ∧
    (∀ (V : Type) [GoEq V] [DecidableEq V] (l : LinkedList V) (v : Option V), WellFormed l →
      (∀ s, ToSlice l = some s → ∀ x ∈ s, ifaceEq x v = some (decide (x = v))) →
      ∃ r, Index l v = some r ∧
        (r = -1 ↔ ∀ i, 0 ≤ i → i < Length l → Get l i ≠ some (v, none)) ∧
        (r ≠ -1 → 0 ≤ r ∧ r < Length l ∧ Get l r = some (v, none) ∧
          ∀ j, 0 ≤ j → j < r → Get l j ≠ some (v, none))) ∧
    Index (NewLinkedList : LinkedList Nat) none = some (-1) := by
  refine ⟨?_, fun V _ _ l v w hlaw => Index_spec_of_lawful l v w hlaw, rfl⟩
  intro V _ l v w hcmp
  obtain ⟨h, ns, t, r⟩ := w.toRing
  obtain ⟨res, hres, hcase⟩ := firstIndex_spec v (ns.map (valOf l.mem)) 0
    (hcmp _ r.ToSlice_eq)
  rw [← IndexLoop_firstIndex r.seg, ← r.Index_eq] at hres
  refine ⟨res, hres, ?_⟩
  have hlen := r.len
  unfold Length
  rcases hcase with ⟨h1, h2⟩ | ⟨j, hj, hrj, ⟨x, hx, hxv⟩, hmin⟩
  · refine ⟨⟨fun _ i y h0 hi hg => ?_, fun _ => h1⟩, fun hc => absurd h1 hc⟩
    exact h2 y (List.getElem?_mem ((r.Get_eq_iff h0 hi y).mp hg))
  · rw [List.length_map] at hj
    have hr0 : 0 ≤ res := by omega
    have hrl : res < l.length := by omega
    have hjt : res.toNat = j := by omega
    have hgr : Get l res = some (x, none) := by
      rw [r.Get_eq_iff hr0 hrl, hjt]; exact hx
    refine ⟨⟨fun hc => by omega, fun hall => ?_⟩, fun _ => ?_⟩
    · have hf := hall res x hr0 hrl hgr
      rw [hxv] at hf
      cases hf
    · refine ⟨hr0, hrl, ⟨x, hgr, hxv⟩, fun i y h0 hi hg => ?_⟩
      exact hmin i.toNat (by omega) y ((r.Get_eq_iff h0 (by omega) y).mp hg)

/-- C10 at the list `[1, 2, 3]`: `Index(2)`, where the comparison of two `int` values
does not panic. -/
theorem C10_index_spec_witness :
    ∃ r, Index list123 (some 2) = some r ∧
      (r = -1 ↔ ∀ i x, 0 ≤ i → i < Length list123 → Get list123 i = some (x, none) →
        ifaceEq x (some 2) = some false) ∧
      (r ≠ -1 → 0 ≤ r ∧ r < Length list123 ∧
        (∃ x, Get list123 r = some (x, none) ∧ ifaceEq x (some 2) = some true) ∧
        ∀ j y, 0 ≤ j → j < r → Get list123 j = some (y, none) →
          ifaceEq y (some 2) = some false) :=
  C10_index_spec.1 Nat list123 (some 2) (by decide)
    (fun _ _ x _ => by cases x <;> rfl)

/-- C11: after `Append(v1)`, ..., `Append(vn)` on a new list, `n` rounds of reading the
front element (`Front()` and `Get(0)` agree) and calling `Remove(0)` read `v1, ..., vn`
in this order, every `Remove(0)` returns a nil error, and the list ends with
`Empty() == true` and `Length() == 0`. -/
theorem C11_append_then_drain_front (vs : List (Option V)) :
    ∃ l l2, appendAll (NewLinkedList : LinkedList V) vs = some l ∧
      drainFront vs.length l = some (vs.map (fun v => (v, (v, none), none)), l2) ∧
      Empty l2 = true ∧ Length l2 = 0 := by
  obtain ⟨l, ns, hall, r, hmap, -⟩ := (Ring.newLinkedList (V := V)).appendAll_eq vs
  obtain ⟨l2, hdrain, r2⟩ := r.drainFront_eq
  have hlen : ns.length = vs.length := by
    have := congrArg List.length hmap
    simpa using this
  have h0 : l2.length = 0 := by simpa using r2.len
  refine ⟨l, l2, hall, ?_, by simp [Empty, h0], h0⟩
  rw [← hlen, hdrain, hmap]
  simp

/-- C12: on a well-formed list `Front()` and `Back()` return without a panic; when the
list is empty both return nil, and otherwise `Front()` returns the first element of
`ToSlice()` and `Back()` the last one. -/
theorem C12_front_back_spec (l : LinkedList V) (w : WellFormed l) :
    ∃ s, ToSlice l = some s ∧
      (Empty l = true → s = [] ∧ Front l = some none ∧ Back l = some none) ∧
      (Empty l = false → ∃ x y, s.head? = some x ∧ s.getLast? = some y ∧
        Front l = some x ∧ Back l = some y) := by
  obtain ⟨h, ns, t, r⟩ := w.toRing
  refine ⟨_, r.ToSlice_eq, ?_, ?_⟩
  · intro he
    have hl : l.length = 0 := by simpa [Empty] using he
    have hns : ns = [] := by
      have := r.len
      rw [hl] at this
      exact List.length_eq_zero.mp (by omega)
    subst hns
    refine ⟨rfl, ?_, ?_⟩
    · rw [r.Front_eq]; rfl
    · rw [r.Back_eq]; rfl
  · intro he
    have hl : l.length ≠ 0 := by simpa [Empty] using he
    cases ns with
    | nil => exact absurd r.len hl
    | cons x xs =>
      refine ⟨valOf l.mem x, valOf l.mem ((x :: xs).getLast (by simp)), by simp, ?_, ?_, ?_⟩
      · rw [List.getLast?_map, List.getLast?_eq_getLast _ (by simp)]; rfl
      · rw [r.Front_eq]; rfl
      · rw [r.Back_eq, List.getLast?_map, List.getLast?_eq_getLast _ (by simp)]; rfl

/-- C12 at the list `[1, 2, 3]`. -/
theorem C12_front_back_spec_witness :
    ∃ s, ToSlice list123 = some s ∧
      (Empty list123 = true → s = [] ∧ Front list123 = some none ∧
        Back list123 = some none) ∧
      (Empty list123 = false → ∃ x y, s.head? = some x ∧ s.getLast? = some y ∧
        Front list123 = some x ∧ Back list123 = some y) :=
  C12_front_back_spec list123 (by decide)

/-- C13: on a well-formed list `Clear()` returns and leaves a well-formed list with
`Length() == 0`, `Empty() == true`, `Front()` and `Back()` nil, `ToSlice()` empty and the
sentinels linked directly (`head.right == tail`, `tail.left == head`).  No sequence of
public calls with non-negative indices tells it from a newly constructed list, and when
the list is reachable no sequence of public calls at all does. -/
theorem C13_clear_spec [GoEq V] (l : LinkedList V) (w : WellFormed l) :
    ∃ l2, Clear l = some l2 ∧ WellFormed l2 ∧ Length l2 = 0 ∧ Empty l2 = true ∧
      Front l2 = some none ∧ Back l2 = some none ∧ ToSlice l2 = some [] ∧
      (load l2.mem l2.head).map (fun n => n.right) = some l2.tail ∧
      (load l2.mem l2.tail).map (fun n => n.left) = some l2.head ∧
      (∀ ops : List (Op V), (∀ op ∈ ops, op.nonneg = true) →
        observe ops l2 = observe ops NewLinkedList) ∧
      (Reachable l → ∀ ops : List (Op V), observe ops l2 = observe ops NewLinkedList) := by
  obtain ⟨h, ns, t, r⟩ := w.toRing
  obtain ⟨l2, hcl, r2, -, -, -, hlen⟩ := r.Clear_eq
  have hts : ToSlice l2 = some [] := by rw [r2.ToSlice_eq]; rfl
  refine ⟨l2, hcl, r2.wellFormed, hlen, by simp [Empty, hlen], ?_, ?_, hts, ?_, ?_, ?_, ?_⟩
  · rw [r2.Front_eq]; rfl
  · rw [r2.Back_eq]; rfl
  · rw [r2.head_eq, r2.tail_eq, load_some r2.lt_head, Option.map_some', r2.seg.1]
  · rw [r2.head_eq, r2.tail_eq, load_some r2.lt_tail, Option.map_some', r2.seg.2]
  · intro ops hops
    exact Ring.observe_eq ops r2 Ring.newLinkedList rfl hops
  · intro hr ops
    exact Reachable.observe_same ops (Reachable.step .clear hr hcl) Reachable.new
      (by rw [hts]; rfl)

/-- C13 at the list `[1, 2, 3]`. -/
theorem C13_clear_spec_witness :
    ∃ l2, Clear list123 = some l2 ∧ WellFormed l2 ∧ Length l2 = 0 ∧ Empty l2 = true ∧
      Front l2 = some none ∧ Back l2 = some none ∧ ToSlice l2 = some [] ∧
      (load l2.mem l2.head).map (fun n => n.right) = some l2.tail ∧
      (load l2.mem l2.tail).map (fun n => n.left) = some l2.head ∧
      (∀ ops : List (Op Nat), (∀ op ∈ ops, op.nonneg = true) →
        observe ops l2 = observe ops NewLinkedList) ∧
      (Reachable list123 → ∀ ops : List (Op Nat),
        observe ops l2 = observe ops NewLinkedList) :=
  C13_clear_spec list123 (by decide)

/-- C14: on a well-formed list `Append(v)` and `Insert(Length(), v)` both succeed and
leave the same list: the same store (every value and link, the new node at the same
address), the same length and the same sentinels; `Insert` returns a nil error. -/
theorem C14_append_is_insert_at_end (l : LinkedList V) (v : Option V) (w : WellFormed l) :
    ∃ l2, Append l v = some l2 ∧ Insert l (Length l) v = some (l2, none) ∧
      ToSlice l2 = (ToSlice l).map (fun s => s ++ [v]) := by
  obtain ⟨h, ns, t, r⟩ := w.toRing
  obtain ⟨l2, happ, r2, -, hval, hnew, -, -⟩ := r.Append_eq v
  have r0 := r.alloc { val := v, left := none, right := none }
  refine ⟨l2, happ, ?_, ?_⟩
  · have hdrop : ns.drop l.length.toNat = [] := by
      rw [r.toNat_length]; exact List.drop_length ns
    unfold Append at happ
    simp only [alloc, Ring.addToTail_eq, Option.map_eq_some'] at happ
    obtain ⟨m1, hadd, rfl⟩ := happ
    unfold Insert Length
    rw [if_neg (lt_irrefl _)]
    simp only [alloc]
    rw [r0.getNodeByIndex_eq, hdrop]
    simp only [Option.some_bind, List.headD_nil]
    rw [r.tail_eq] at hadd
    rw [hadd]
    rfl
  · rw [r2.ToSlice_eq, r.ToSlice_eq, Option.map_some', List.map_append, List.map_singleton,
      hnew, map_valOf_congr (fun x hx => r.lt_of_mem hx) hval]

/-- C14 at the list `[1, 2, 3]`. -/
theorem C14_append_is_insert_at_end_witness :
    ∃ l2, Append list123 (some 4) = some l2 ∧
      Insert list123 (Length list123) (some 4) = some (l2, none) ∧
      ToSlice l2 = (ToSlice list123).map (fun s => s ++ [some 4]) :=
  C14_append_is_insert_at_end list123 (some 4) (by decide)

/-- C15: on a well-formed list every read-only operation (`Get`, `Index`, `Front`,
`Back`, `Empty`, `Length`, `ToSlice`), with any argument, returns (`Index` provided that
its comparisons `p.val == v` do not panic) and leaves the list as it was (store, length
and sentinels); `ToSlice()` has `Length()` entries, entry `i` is the value `Get(i)`
returns, and it is empty for an empty list. -/
theorem C15_read_only_frame [GoEq V] (l : LinkedList V) (w : WellFormed l) :
    (∀ op : Op V, op.readOnly = true →
      (∀ v s, op = .index v → ToSlice l = some s → ∀ x ∈ s, (ifaceEq x v).isSome = true) →
      ∃ o, op.call l = some (l, o)) ∧
    (∀ op : Op V, op.readOnly = true → ∀ l2 o, op.call l = some (l2, o) → l2 = l) ∧
    ∃ s, ToSlice l = some s ∧ (s.length : Int) = Length l ∧
      (∀ i : Int, 0 ≤ i → i < Length l →
        ∃ x, s[i.toNat]? = some x ∧ Get l i = some (x, none)) ∧
      (Empty l = true → s = []) := by
  obtain ⟨h, ns, t, r⟩ := w.toRing
  have hlen := r.len
  refine ⟨?_, ?_, ?_⟩
  rotate_left
  · intro op hop l2 o hc
    cases op with
    | append v => simp [Op.readOnly] at hop
    | insert idx v => simp [Op.readOnly] at hop
    | remove idx => simp [Op.readOnly] at hop
    | clear => simp [Op.readOnly] at hop
    | get idx =>
      simp only [Op.call, Option.map_eq_some', Prod.mk.injEq] at hc
      obtain ⟨_, _, rfl, _⟩ := hc
      rfl
    | index v =>
      simp only [Op.call, Option.map_eq_some', Prod.mk.injEq] at hc
      obtain ⟨_, _, rfl, _⟩ := hc
      rfl
    | front =>
      simp only [Op.call, Option.map_eq_some', Prod.mk.injEq] at hc
      obtain ⟨_, _, rfl, _⟩ := hc
      rfl
    | back =>
      simp only [Op.call, Option.map_eq_some', Prod.mk.injEq] at hc
      obtain ⟨_, _, rfl, _⟩ := hc
      rfl
    | empty =>
      simp only [Op.call, Option.some.injEq, Prod.mk.injEq] at hc
      exact hc.1.symm
    | length =>
      simp only [Op.call, Option.some.injEq, Prod.mk.injEq] at hc
      exact hc.1.symm
    | toSlice =>
      simp only [Op.call, Option.map_eq_some', Prod.mk.injEq] at hc
      obtain ⟨_, _, rfl, _⟩ := hc
      rfl
  rotate_left
  · intro op hop hcmp
    cases op with
    | append v => simp [Op.readOnly] at hop
    | insert idx v => simp [Op.readOnly] at hop
    | remove idx => simp [Op.readOnly] at hop
    | clear => simp [Op.readOnly] at hop
    | get idx =>
      obtain ⟨x, e, hg⟩ := r.Get_returns idx
      exact ⟨.valueError x e, by simp only [Op.call, hg, Option.map_some']⟩
    | index v =>
      obtain ⟨i, hi⟩ := firstIndex_isSome v (ns.map (valOf l.mem)) 0
        (hcmp v _ rfl r.ToSlice_eq)
      exact ⟨.int i, by simp only [Op.call, r.Index_eq, IndexLoop_firstIndex r.seg, hi,
        Option.map_some']⟩
    | front =>
      exact ⟨.value (ns.map (valOf l.mem)).head?.join,
        by simp only [Op.call, r.Front_eq, Option.map_some']⟩
    | back =>
      exact ⟨.value (ns.map (valOf l.mem)).getLast?.join,
        by simp only [Op.call, r.Back_eq, Option.map_some']⟩
    | empty => exact ⟨_, rfl⟩
    | length => exact ⟨_, rfl⟩
    | toSlice =>
      exact ⟨.slice (ns.map (valOf l.mem)),
        by simp only [Op.call, r.ToSlice_eq, Option.map_some']⟩
  · refine ⟨_, r.ToSlice_eq, by rw [List.length_map, Length, hlen], ?_, ?_⟩
    · intro i h0 hi
      have hk : i.toNat < ns.length := by unfold Length at hi; omega
      refine ⟨valOf l.mem ns[i.toNat], by simp [List.getElem?_eq_getElem hk], ?_⟩
      rw [r.Get_eq hi hk]
      simp [List.getElem?_eq_getElem hk]
    · intro he
      have hl : l.length = 0 := by simpa [Empty] using he
      have hns : ns = [] := List.length_eq_zero.mp (by omega)
      rw [hns]; rfl

/-- C15 at the list `[1, 2, 3]`. -/
theorem C15_read_only_frame_witness :
    (∀ op : Op Nat, op.readOnly = true →
      (∀ v s, op = .index v → ToSlice list123 = some s →
        ∀ x ∈ s, (ifaceEq x v).isSome = true) →
      ∃ o, op.call list123 = some (list123, o)) ∧
    (∀ op : Op Nat, op.readOnly = true →
      ∀ l2 o, op.call list123 = some (l2, o) → l2 = list123) ∧
    ∃ s, ToSlice list123 = some s ∧ (s.length : Int) = Length list123 ∧
      (∀ i : Int, 0 ≤ i → i < Length list123 →
        ∃ x, s[i.toNat]? = some x ∧ Get list123 i = some (x, none)) ∧
      (Empty list123 = true → s = []) :=
  C15_read_only_frame list123 (by decide)

/-- C16: on every list state, well-formed or not, the scan of `Index` inspects at most
`max(length, 0)` nodes; when `head` is not nil, every right link is nil or the address
of a node and no comparison `p.val == v` panics, `Index` returns a value.  On
`cycleList`, whose right-links never reach `tail`, and on `nilLinkList`, whose
right-links run into nil, `Index(9)` returns `-1` after 5 and after 1 inspected nodes. -/
theorem C16_index_scan_bounded :
    (∀ (V : Type) [GoEq V] (l : LinkedList V) (v : Option V),
      (IndexSteps l v).map Prod.fst = Index l v ∧
      (∀ r n, IndexSteps l v = some (r, n) → (n : Int) ≤ max l.length 0) ∧
      ((∃ a, l.head = some a ∧ a < l.mem.length) →
        (∀ nd ∈ l.mem, ∀ a, nd.right = some a → a < l.mem.length) →
        (∀ nd ∈ l.mem, (ifaceEq nd.val v).isSome = true) →
        ∃ r n, IndexSteps l v = some (r, n) ∧ Index l v = some r ∧
          (n : Int) ≤ max l.length 0)) ∧
    (¬ WellFormed cycleList ∧ ToSlice cycleList = none ∧
      IndexSteps cycleList (some 9) = some (-1, 5)) ∧
    (¬ WellFormed nilLinkList ∧ IndexSteps nilLinkList (some 9) = some (-1, 1)) := by
  refine ⟨?_, ⟨by decide, by decide, by decide⟩, ⟨by decide, by decide⟩⟩
  intro V _ l v
  have hfst : (IndexSteps l v).map Prod.fst = Index l v := by
    unfold IndexSteps Index
    cases load l.mem l.head with
    | none => rfl
    | some hd => exact IndexLoopSteps_fst _ _ _ _ _ _
  have hle : ∀ r n, IndexSteps l v = some (r, n) → (n : Int) ≤ max l.length 0 := by
    intro r n h
    unfold IndexSteps at h
    cases hl : load l.mem l.head with
    | none => simp [hl] at h
    | some hd =>
      simp only [hl, Option.some_bind] at h
      have := IndexLoopSteps_le _ _ _ _ _ _ _ _ h
      omega
  refine ⟨hfst, hle, ?_⟩
  rintro ⟨a, hha, hlt⟩ hclosed hcmp
  have hex : ∃ r n, IndexSteps l v = some (r, n) := by
    unfold IndexSteps
    rw [hha]
    simp only [load, Option.some_bind, List.getElem?_eq_getElem hlt]
    exact IndexLoopSteps_returns _ _ hclosed hcmp _ _ _ _
      (hclosed _ (List.getElem_mem hlt))
  obtain ⟨r, n, h⟩ := hex
  refine ⟨r, n, h, ?_, hle r n h⟩
  rw [← hfst, h]; rfl

/-- C16 at `cycleList`: `Index(2)` returns position 1 after inspecting 2 nodes. -/
theorem C16_index_scan_bounded_witness :
    ∃ r n, IndexSteps cycleList (some 2) = some (r, n) ∧ Index cycleList (some 2) = some r ∧
      (n : Int) ≤ max cycleList.length 0 :=
  (C16_index_scan_bounded.1 Nat cycleList (some 2)).2.2 ⟨0, rfl, by decide⟩ (by decide)
    (by decide)

/-- C17: on a well-formed list `getNodeByIndex(idx)` always returns a non-nil node; for
`0 <= idx < length` it is the non-sentinel node at position `idx`, the one reached from
`head` by `idx+1` right-links; for every `idx >= length` it is `tail`. -/
theorem C17_getNodeByIndex_spec (l : LinkedList V) (idx : Int) (w : WellFormed l) :
    (∃ a, getNodeByIndex l idx = some (some a)) ∧
    (0 ≤ idx → idx < Length l →
      ∃ a, getNodeByIndex l idx = some (some a) ∧ some a ≠ l.head ∧ some a ≠ l.tail ∧
        follow (rightOf l.mem) (idx.toNat + 1) l.head = some a ∧
        (nodesRight l).bind (fun ns => ns[idx.toNat]?) = some a) ∧
    (Length l ≤ idx → getNodeByIndex l idx = some l.tail) := by
  obtain ⟨h, ns, t, r⟩ := w.toRing
  have hlen := r.len
  refine ⟨⟨_, r.getNodeByIndex_eq idx⟩, ?_, ?_⟩
  · intro h0 hi
    have hk : idx.toNat < ns.length := by unfold Length at hi; omega
    refine ⟨ns[idx.toNat], ?_, ?_, ?_, ?_, ?_⟩
    · rw [r.getNodeByIndex_eq, Ring.headD_drop hk]
    · rw [r.head_eq]
      intro hc
      exact r.head_not_mem ((Option.some.inj hc) ▸ List.getElem_mem hk)
    · rw [r.tail_eq]
      intro hc
      exact r.tail_not_mem ((Option.some.inj hc) ▸ List.getElem_mem hk)
    · rw [r.head_eq]; exact r.seg.follow_right_nth _ hk
    · rw [r.nodesRight_eq, Option.some_bind, List.getElem?_eq_getElem hk]
  · intro hi
    have hdrop : ns.drop idx.toNat = [] :=
      List.drop_eq_nil_of_le (by unfold Length at hi; omega)
    rw [r.getNodeByIndex_eq, hdrop, r.tail_eq]; rfl

/-- C17 at the list `[1, 2, 3]`, index 1. -/
theorem C17_getNodeByIndex_spec_witness :
    (∃ a, getNodeByIndex list123 1 = some (some a)) ∧
    (0 ≤ (1 : Int) → (1 : Int) < Length list123 →
      ∃ a, getNodeByIndex list123 1 = some (some a) ∧ some a ≠ list123.head ∧
        some a ≠ list123.tail ∧
        follow (rightOf list123.mem) ((1 : Int).toNat + 1) list123.head = some a ∧
        (nodesRight list123).bind (fun ns => ns[(1 : Int).toNat]?) = some a) ∧
    (Length list123 ≤ 1 → getNodeByIndex list123 1 = some list123.tail) :=
  C17_getNodeByIndex_spec list123 1 (by decide)

/-- C18: on a well-formed list a negative index acts as index 0: `Insert(idx, v)` is
`Insert(0, v)` and returns a nil error; on a non-empty list `Get(idx)` returns
`(Front(), nil)` and `Remove(idx)` is `Remove(0)` and returns a nil error; on an empty
list `Get(idx)` returns the value of the `tail` sentinel with a nil error, which is
`(nil, nil)` on every reachable list. -/
theorem C18_negative_index_is_zero [GoEq V] (l : LinkedList V) (idx : Int)
    (v : Option V) (w : WellFormed l) (hneg : idx < 0) :
    (Insert l idx v = Insert l 0 v ∧ ∃ l2, Insert l idx v = some (l2, none)) ∧
    (Empty l = false →
      (∃ x, Front l = some x ∧ Get l idx = some (x, none)) ∧
      Remove l idx = Remove l 0 ∧ ∃ l2, Remove l idx = some (l2, none)) ∧
    (Empty l = true →
      (∃ tl, load l.mem l.tail = some tl ∧ Get l idx = some (tl.val, none)) ∧
      (Reachable l → Get l idx = some (none, none))) := by
  obtain ⟨h, ns, t, r⟩ := w.toRing
  have hlen := r.len
  have htn : idx.toNat = 0 := by omega
  refine ⟨⟨?_, ?_⟩, ?_, ?_⟩
  · unfold Insert
    rw [if_neg (by omega), if_neg (by omega)]
    simp only [alloc, getNodeByIndex, htn, Int.toNat_zero]
  · obtain ⟨l2, hins, -⟩ := r.Insert_eq v (show idx ≤ l.length by omega)
    exact ⟨l2, hins⟩
  · intro he
    have hl : l.length ≠ 0 := by simpa [Empty] using he
    have hpos : 0 < ns.length := by omega
    have hk : idx.toNat < ns.length := by omega
    have hidx : idx < l.length := by omega
    refine ⟨⟨_, r.Front_eq, ?_⟩, ?_, ?_⟩
    · rw [r.Get_eq hidx hk, htn]
      cases ns with
      | nil => simp at hpos
      | cons x xs => simp
    · unfold Remove
      rw [if_neg (by omega), if_neg (by omega)]
      simp only [getNodeByIndex, htn, Int.toNat_zero]
    · obtain ⟨l2, hrem, -⟩ := r.Remove_eq hidx hk
      exact ⟨l2, hrem⟩
  · intro he
    have hl : l.length = 0 := by simpa [Empty] using he
    have hns : ns = [] := List.length_eq_zero.mp (by omega)
    subst hns
    have hget : Get l idx = some (valOf l.mem t, none) := by
      rw [Get, if_neg (by omega), r.getNodeByIndex_eq]
      simp only [List.drop_nil, List.headD_nil, Option.some_bind]
      rw [load_some r.lt_tail]
      rfl
    refine ⟨⟨_, by rw [r.tail_eq]; exact load_some r.lt_tail, hget⟩, ?_⟩
    intro hreach
    obtain ⟨h2, ns2, t2, r2, -, hv⟩ := hreach.ring_tail_clean
    have htt : t2 = t := by
      have := r2.tail_eq
      rw [r.tail_eq] at this
      exact (Option.some.inj this).symm
    rw [hget, ← htt, hv]

/-- C18 at the list `[1, 2, 3]`, index `-4`. -/
theorem C18_negative_index_is_zero_witness :
    (Insert list123 (-4) (some 9) = Insert list123 0 (some 9) ∧
      ∃ l2, Insert list123 (-4) (some 9) = some (l2, none)) ∧
    (Empty list123 = false →
      (∃ x, Front list123 = some x ∧ Get list123 (-4) = some (x, none)) ∧
      Remove list123 (-4) = Remove list123 0 ∧ ∃ l2, Remove list123 (-4) = some (l2, none)) ∧
    (Empty list123 = true →
      (∃ tl, load list123.mem list123.tail = some tl ∧
        Get list123 (-4) = some (tl.val, none)) ∧
      (Reachable list123 → Get list123 (-4) = some (none, none))) :=
  C18_negative_index_is_zero list123 (-4) (some 9) (by decide) (by decide)

/-- C19: on a well-formed list, for `0 <= idx <= Length()`, `Insert(idx, v)` followed by
`Remove(idx)` returns a nil error twice and restores the list: `Length()` and `ToSlice()`
are as before, the sentinels are the same, and every cell that existed before the
`Insert` (the sentinels included) has exactly its old value and links. -/
theorem C19_remove_undoes_insert (l : LinkedList V) (idx : Int) (v : Option V)
    (w : WellFormed l) (h0 : 0 ≤ idx) (hidx : idx ≤ Length l) :
    ∃ l1 l2, Insert l idx v = some (l1, none) ∧ Remove l1 idx = some (l2, none) ∧
      WellFormed l2 ∧ Length l2 = Length l ∧ ToSlice l2 = ToSlice l ∧
      l2.head = l.head ∧ l2.tail = l.tail ∧
      (∀ a, a < l.mem.length → l2.mem[a]? = l.mem[a]?) := by
  obtain ⟨h, ns, t, r⟩ := w.toRing
  unfold Length at hidx
  have hlen := r.len
  have hk : idx.toNat ≤ ns.length := by omega
  obtain ⟨l1, prev, hins, hpm, hlk, hlen1, hh1, ht1, hl1, hr1, hlf1, hv1⟩ :=
    r.Insert_effect v hidx
  obtain ⟨l1b, hinsb, r1, -⟩ := r.Insert_eq v hidx
  have e1 : l1b = l1 := by
    rw [hins] at hinsb
    simp only [Option.some.injEq, Prod.mk.injEq, and_true] at hinsb
    exact hinsb.symm
  subst e1
  have htake : (ns.take idx.toNat).length = idx.toNat := by
    rw [List.length_take]; omega
  have hk1 : idx.toNat < (ns.take idx.toNat ++ l.mem.length :: ns.drop idx.toNat).length := by
    rw [List.length_append, htake, List.length_cons]; omega
  have hidx1 : idx < l1b.length := by omega
  obtain ⟨l2, prev2, hrem, -, hlka, -, hlen2, hh2, ht2, hl2, hr2, hlf2, hv2⟩ :=
    r1.Remove_effect hidx1 hk1
  obtain ⟨l2b, hremb, r2, -⟩ := r1.Remove_eq hidx1 hk1
  have e2 : l2b = l2 := by
    rw [hrem] at hremb
    simp only [Option.some.injEq, Prod.mk.injEq, and_true] at hremb
    exact hremb.symm
  subst e2
  have hnode : (ns.take idx.toNat ++ l.mem.length :: ns.drop idx.toNat)[idx.toNat]
      = l.mem.length := by
    rw [List.getElem_append_right (by omega)]
    simp [htake]
  have hdrop : (ns.take idx.toNat ++ l.mem.length :: ns.drop idx.toNat).drop (idx.toNat + 1)
      = ns.drop idx.toNat := by
    have : ns.take idx.toNat ++ l.mem.length :: ns.drop idx.toNat
        = (ns.take idx.toNat ++ [l.mem.length]) ++ ns.drop idx.toNat := by simp
    rw [this]
    exact List.drop_left' (by rw [List.length_append, htake]; rfl)
  have htk : (ns.take idx.toNat ++ l.mem.length :: ns.drop idx.toNat).take idx.toNat
      = ns.take idx.toNat := List.take_left' htake
  rw [hdrop] at hr2 hlf2
  rw [hdrop, htk, List.take_append_drop] at r2
  rw [hnode] at hlka
  have hcur : (ns.drop idx.toNat).headD t < l.mem.length := leftOf_lt hlk.2
  have hprev : prev < l.mem.length := rightOf_lt hlk.1
  have hp2 : prev2 = prev := by
    have h1 := hlka.2
    rw [hlf1, if_neg (by omega), if_pos rfl] at h1
    exact (Option.some.inj h1).symm
  subst hp2
  have hcell : ∀ a, a < l.mem.length → l2b.mem[a]? = l.mem[a]? := by
    intro a ha
    refine getElem?_eq_of_fields ha (by omega) ?_ ?_ ?_
    · rw [hv2, hv1, if_neg (by omega)]
    · rw [hlf2, hlf1]
      by_cases hc : a = (ns.drop idx.toNat).headD t
      · rw [if_pos hc, hc, hlk.2]
      · rw [if_neg hc, if_neg hc, if_neg (by omega)]
    · rw [hr2, hr1]
      by_cases hc : a = prev2
      · rw [if_pos hc, hc, hlk.1]
      · rw [if_neg hc, if_neg hc, if_neg (by omega)]
  refine ⟨l1b, l2b, hins, hrem, r2.wellFormed, ?_, ?_, by rw [hh2, hh1], by rw [ht2, ht1],
    hcell⟩
  · unfold Length; omega
  · rw [r2.ToSlice_eq, r.ToSlice_eq]
    congr 1
    refine List.map_congr_left fun x hx => ?_
    rw [hv2, hv1, if_neg (by have := r.lt_of_mem hx; omega)]

/-- C19 at the list `[1, 2, 3]`: `Insert(1, 9)` then `Remove(1)`. -/
theorem C19_remove_undoes_insert_witness :
    ∃ l1 l2, Insert list123 1 (some 9) = some (l1, none) ∧ Remove l1 1 = some (l2, none) ∧
      WellFormed l2 ∧ Length l2 = Length list123 ∧ ToSlice l2 = ToSlice list123 ∧
      l2.head = list123.head ∧ l2.tail = list123.tail ∧
      (∀ a, a < list123.mem.length → l2.mem[a]? = list123.mem[a]?) :=
  C19_remove_undoes_insert list123 1 (some 9) (by decide) (by decide) (by decide)

/-- C20 as stated fails: on the list `[1, 2, 3]` the call `removeNode` that `Remove(1)`
makes changes exactly two link fields, not four, and with the length field still 3 the
ring-closure invariant does not hold when the primitive returns. -/
theorem C20_removeNode_changes_two_links :
    WellFormed list123 ∧ getNodeByIndex list123 1 = some (some 3) ∧
    ∃ m2, removeNode list123.mem (some 3) = some m2 ∧ changedLinks list123.mem m2 = 2 ∧
      ¬ ringClosure { list123 with mem := m2 } :=
  ⟨by decide, rfl, _, rfl, by decide, by decide⟩

/-- C20 (amended): on a well-formed list, `addBefore` as `Insert` calls it and
`addToTail` as `Append` calls it change exactly four link fields (`left` and `right` of
the new node, `left` of the node it is put before, `right` of that node's old left
neighbour), and `removeNode` as `Remove` calls it changes exactly two (`right` of the
left neighbour, `left` of the right neighbour; the removed node keeps its links).  No
value and no other link changes, the primitives do not touch the length field, symmetry
holds when they return, and all invariants hold once the caller has adjusted the
length. -/
theorem C20_splice_frame (l : LinkedList V) (v : Option V) (idx : Int) (w : WellFormed l) :
    (idx ≤ Length l →
      ∃ cur prev m2,
        getNodeByIndex { l with mem := (alloc l.mem v).1 } idx = some (some cur) ∧
        leftOf l.mem cur = some prev ∧
        addBefore (alloc l.mem v).1 (alloc l.mem v).2 (some cur) = some m2 ∧
        changedLinks (alloc l.mem v).1 m2 = 4 ∧
        (∀ x, leftOf m2 x ≠ leftOf (alloc l.mem v).1 x ↔ x = l.mem.length ∨ x = cur) ∧
        (∀ x, rightOf m2 x ≠ rightOf (alloc l.mem v).1 x ↔ x = l.mem.length ∨ x = prev) ∧
        (∀ x, valOf m2 x = valOf (alloc l.mem v).1 x) ∧
        m2.length = (alloc l.mem v).1.length ∧
        symmetry { l with mem := m2 } ∧
        WellFormed { l with mem := m2, length := l.length + 1 }) ∧
    (∃ t prev m2, l.tail = some t ∧ leftOf l.mem t = some prev ∧
        addToTail { l with mem := (alloc l.mem v).1 } (alloc l.mem v).2 = some m2 ∧
        changedLinks (alloc l.mem v).1 m2 = 4 ∧
        (∀ x, leftOf m2 x ≠ leftOf (alloc l.mem v).1 x ↔ x = l.mem.length ∨ x = t) ∧
        (∀ x, rightOf m2 x ≠ rightOf (alloc l.mem v).1 x ↔ x = l.mem.length ∨ x = prev) ∧
        (∀ x, valOf m2 x = valOf (alloc l.mem v).1 x) ∧
        m2.length = (alloc l.mem v).1.length ∧
        symmetry { l with mem := m2 } ∧
        WellFormed { l with mem := m2, length := l.length + 1 }) ∧
    (0 ≤ idx → idx < Length l →
      ∃ node prev next m2, getNodeByIndex l idx = some (some node) ∧
        leftOf l.mem node = some prev ∧ rightOf l.mem node = some next ∧
        removeNode l.mem (some node) = some m2 ∧
        changedLinks l.mem m2 = 2 ∧
        (∀ x, leftOf m2 x ≠ leftOf l.mem x ↔ x = next) ∧
        (∀ x, rightOf m2 x ≠ rightOf l.mem x ↔ x = prev) ∧
        (∀ x, valOf m2 x = valOf l.mem x) ∧ m2.length = l.mem.length ∧
        symmetry { l with mem := m2 } ∧
        WellFormed { l with mem := m2, length := l.length - 1 }) := by
  obtain ⟨h, ns, t, r⟩ := w.toRing
  have hlen := r.len
  refine ⟨?_, ?_, ?_⟩
  · intro hidx
    obtain ⟨prev, m2, hp, hadd, hcnt, hL, hR, hval, hlen2, hw⟩ := r.addBefore_frame v hidx
    exact ⟨_, prev, m2,
      (r.alloc { val := v, left := none, right := none }).getNodeByIndex_eq idx,
      hp, hadd, hcnt, hL, hR, hval, hlen2, hw.2.2.2, hw⟩
  · obtain ⟨prev, m2, hp, hadd, hcnt, hL, hR, hval, hlen2, hw⟩ :=
      r.addBefore_frame v (le_refl l.length)
    have hdrop : ns.drop l.length.toNat = [] := by
      rw [r.toNat_length]; exact List.drop_length ns
    rw [hdrop, List.headD_nil] at hp hadd hL
    refine ⟨t, prev, m2, r.tail_eq, hp, ?_, hcnt, hL, hR, hval, hlen2, hw.2.2.2, hw⟩
    rw [Ring.addToTail_eq]
    simp only [alloc, r.tail_eq]
    exact hadd
  · intro h0 hidx
    have hk : idx.toNat < ns.length := by unfold Length at hidx; omega
    obtain ⟨prev, next, m2, hp, hn, hrem, hcnt, hL, hR, hval, hlen2, hw⟩ :=
      r.removeNode_frame hidx hk
    refine ⟨ns[idx.toNat], prev, next, m2, ?_, hp, hn, hrem, hcnt, hL, hR, hval, hlen2,
      hw.2.2.2, hw⟩
    rw [r.getNodeByIndex_eq, Ring.headD_drop hk]

/-- C20 (amended) at the list `[1, 2, 3]`: the `removeNode` call of `Remove(1)`. -/
theorem C20_splice_frame_witness :
    ∃ node prev next m2, getNodeByIndex list123 1 = some (some node) ∧
      leftOf list123.mem node = some prev ∧ rightOf list123.mem node = some next ∧
      removeNode list123.mem (some node) = some m2 ∧
      changedLinks list123.mem m2 = 2 ∧
      (∀ x, leftOf m2 x ≠ leftOf list123.mem x ↔ x = next) ∧
      (∀ x, rightOf m2 x ≠ rightOf list123.mem x ↔ x = prev) ∧
      (∀ x, valOf m2 x = valOf list123.mem x) ∧ m2.length = list123.mem.length ∧
      symmetry { list123 with mem := m2 } ∧
      WellFormed { list123 with mem := m2, length := list123.length - 1 } :=
  (C20_splice_frame list123 (some 9) 1 (by decide)).2.2 (by decide) (by decide)

end GoDS

